import Mathlib

/-! LU decomposition without pivoting (luDecomposition.h).

A shallow embedding of `LUDecomposition::Decompose` and of the small part of
`Matrix<T>` it relies on, followed by the properties of the decomposition.

The element type `T` of the C++ template is a type `K` with the operations the
code uses (`0`, `1`, `-`, `*`, `/`) together with a `Scalar K`: the three other
things the code takes from the numeric type (`std::fabs`, `<` and
`std::numeric_limits<T>::min()`). The properties of exact arithmetic take `K` to
be a field. The loop counters are `size_t` values bounded by the matrix size, so they are
natural numbers here and never wrap.

Division in a Lean field is total (`x / 0 = 0`). The properties below that
depend on a quotient assume that the pivot test rejects a zero pivot, which is
what the positive `std::numeric_limits<T>::min()` of a floating-point type
gives; the run then never divides by zero.

The tests run the code with `T = double`. `Double` is a model of that type, every
operation rounded to nearest, and `doubleScalar` its pivot test; the statements that
hold in exact arithmetic only are set against a run in `double`.
-/

namespace LinAlg

/-- Modelled from the spec: the class `Matrix<T>` of `matrix.h`, which is not
part of the sources at hand. A dense rectangular container that exposes its
row and column counts and is addressed by zero-based `(row, column)`. -/
structure Matrix (T : Type) where
  rows : Nat
  columns : Nat
  data : Nat → Nat → T

namespace Matrix

variable {T : Type}

/-- Modelled from the spec: read access `matrix(row, column)`. -/
def get (A : Matrix T) (row column : Nat) : T :=
  A.data row column

/-- Modelled from the spec: write access `matrix(row, column) = value`; every
other element keeps its value. -/
def set (A : Matrix T) (row column : Nat) (value : T) : Matrix T :=
  { A with data := fun i j => if i = row ∧ j = column then value else A.data i j }

/-- Modelled from the spec: the constructor `Matrix<T>(rows, columns, data)` used
by the tests, reading `rows * columns` elements in row-major order. -/
def ofList [Zero T] (rows columns : Nat) (elements : List T) : Matrix T :=
  { rows := rows
    columns := columns
    data := fun i j =>
      if i < rows ∧ j < columns then elements.getD (i * columns + j) 0 else 0 }

/-- Modelled from the spec: the product `A * B` of `matrix.h`, the usual
row-by-column product. -/
def mul [Semiring T] (A B : Matrix T) : Matrix T :=
  { rows := A.rows
    columns := B.columns
    data := fun i j => ∑ k ∈ Finset.range A.columns, A.data i k * B.data k j }

/-- Modelled from the spec: the product `A * B` of `matrix.h` as a loop computes it for
an element type whose sum is rounded, each element accumulated from zero in the order
of the index `k`. -/
def mulLoop [Zero T] [Add T] [Mul T] (A B : Matrix T) : Matrix T :=
  { rows := A.rows
    columns := B.columns
    data := fun i j =>
      (List.range A.columns).foldl (fun sum k => sum + A.data i k * B.data k j) 0 }

/-- The matrix of the images of the elements under `f`. -/
def map {S : Type} (f : T → S) (A : Matrix T) : Matrix S :=
  { rows := A.rows
    columns := A.columns
    data := fun i j => f (A.data i j) }

/-- Two matrices are the same when they have the same shape and the same element
at every position inside that shape. -/
def Same (A B : Matrix T) : Prop :=
  A.rows = B.rows ∧ A.columns = B.columns ∧
    ∀ i, i < A.rows → ∀ j, j < A.columns → A.get i j = B.get i j

instance [DecidableEq T] (A B : Matrix T) : Decidable (Same A B) := by
  unfold Same
  infer_instance

/-- The elements of a matrix, row by row. -/
def toLists (A : Matrix T) : List (List T) :=
  (List.range A.rows).map fun i => (List.range A.columns).map fun j => A.get i j

end Matrix

namespace MatrixFactory

/-- Modelled from the spec: `MatrixFactory::IdentityMatrix<T>(size)` of
`matrixFactory.h`, the `size × size` identity matrix. -/
def IdentityMatrix {T : Type} [Zero T] [One T] (size : Nat) : Matrix T :=
  { rows := size
    columns := size
    data := fun i j => if i = j then 1 else 0 }

end MatrixFactory

/-- The element type as `Decompose` sees it, apart from its field arithmetic:
`std::fabs`, the comparison `<`, and `std::numeric_limits<T>::min()`. -/
structure Scalar (T : Type) where
  fabs : T → T
  lt : T → T → Bool
  min : T

namespace Scalar

variable {T : Type}

/-- The pivot test of `Decompose`:
`std::fabs(divisor) < std::numeric_limits<T>::min()`. -/
def negligible (N : Scalar T) (divisor : T) : Bool :=
  N.lt (N.fabs divisor) N.min

/-- An ordered field with its absolute value, its order, and a threshold `tmin`
in the place of `std::numeric_limits<T>::min()`. -/
def ordered {K : Type} [LinearOrderedField K] (tmin : K) : Scalar K :=
  { fabs := fun x => |x|
    lt := fun x y => decide (x < y)
    min := tmin }

end Scalar

/-- The two `std::domain_error`s thrown by `Decompose`. -/
inductive DomainError where
  | notSquare
  | divisionByZero
  deriving DecidableEq

/-- The message carried by the exception. -/
def DomainError.what : DomainError → String
  | .notSquare => "Matrix is not square."
  | .divisionByZero => "Division by 0."

/-- The loop `for (size_t i = start; ...; ++i) body`, run for `count` iterations;
an exception thrown by the body ends the loop. -/
def forLoop {σ ε : Type} (body : Nat → σ → Except ε σ) : Nat → Nat → σ → Except ε σ
  | 0, _, s => .ok s
  | count + 1, i, s =>
    match body i s with
    | .error e => .error e
    | .ok s' => forLoop body count (i + 1) s'

/-- The loop `for (size_t i = start; i < stop; ++i) body`. -/
def forRange {σ ε : Type} (start stop : Nat) (body : Nat → σ → Except ε σ) (s : σ) :
    Except ε σ :=
  forLoop body (stop - start) start s

namespace LUDecomposition

/-- The struct `Decomposition<T>`. -/
structure Decomposition (T : Type) where
  L : Matrix T
  U : Matrix T

/-- The constructor `Decomposition(const Matrix<T> &matrix)`. -/
def Decomposition.init {T : Type} [Zero T] [One T] (matrix : Matrix T) : Decomposition T :=
  { L := MatrixFactory.IdentityMatrix matrix.rows, U := matrix }

section Operations

variable {K : Type} [Zero K] [One K] [Sub K] [Mul K] [Div K]

/-- Body of the innermost loop:
`U(row, col) -= L(row, column) * U(column, col)`. -/
def colBody (row column : Nat) (col : Nat) (d : Decomposition K) :
    Except DomainError (Decomposition K) :=
  .ok { d with U := d.U.set row col (d.U.get row col - d.L.get row column * d.U.get column col) }

/-- Body of the loop over the rows below the pivot: the pivot test, the
multiplier stored in `L`, and the elimination along the row. -/
def rowBody (N : Scalar K) (nbColumns column : Nat) (row : Nat) (d : Decomposition K) :
    Except DomainError (Decomposition K) :=
  let divisor := d.U.get column column
  if N.lt (N.fabs divisor) N.min then
    .error .divisionByZero
  else
    let d1 := { d with L := d.L.set row column (d.U.get row column / divisor) }
    forRange column nbColumns (colBody row column) d1

/-- Body of the loop over the pivot columns. -/
def columnBody (N : Scalar K) (nbRows nbColumns : Nat) (column : Nat) (d : Decomposition K) :
    Except DomainError (Decomposition K) :=
  forRange (column + 1) nbRows (rowBody N nbColumns column) d

/-- The function `LUDecomposition::Decompose`. -/
def Decompose (N : Scalar K) (matrix : Matrix K) : Except DomainError (Decomposition K) :=
  let nbRows := matrix.rows
  let nbColumns := matrix.columns
  if nbRows ≠ nbColumns then
    .error .notSquare
  else
    let decomposition := Decomposition.init matrix
    let decomposition := { decomposition with L := MatrixFactory.IdentityMatrix nbRows }
    forRange 0 nbColumns (columnBody N nbRows nbColumns) decomposition

/-- The body `rowBody` with a record of the divisions: the state carries the
divisors of the divisions carried out so far, in order, and an exception
carries the record as it stood when it was thrown. -/
def rowBodyLog (N : Scalar K) (nbColumns column : Nat) (row : Nat)
    (s : Decomposition K × List K) :
    Except (DomainError × List K) (Decomposition K × List K) :=
  let divisor := s.1.U.get column column
  if N.lt (N.fabs divisor) N.min then
    .error (.divisionByZero, s.2)
  else
    let d1 := { s.1 with L := s.1.L.set row column (s.1.U.get row column / divisor) }
    match forRange column nbColumns (colBody row column) d1 with
    | .error e => .error (e, s.2 ++ [divisor])
    | .ok d2 => .ok (d2, s.2 ++ [divisor])

/-- The body `columnBody` with the record of the divisions. -/
def columnBodyLog (N : Scalar K) (nbRows nbColumns : Nat) (column : Nat)
    (s : Decomposition K × List K) :
    Except (DomainError × List K) (Decomposition K × List K) :=
  forRange (column + 1) nbRows (rowBodyLog N nbColumns column) s

/-- The function `Decompose` with the record of the divisions. -/
def DecomposeLog (N : Scalar K) (matrix : Matrix K) :
    Except (DomainError × List K) (Decomposition K × List K) :=
  let nbRows := matrix.rows
  let nbColumns := matrix.columns
  if nbRows ≠ nbColumns then
    .error (.notSquare, [])
  else
    let decomposition := Decomposition.init matrix
    let decomposition := { decomposition with L := MatrixFactory.IdentityMatrix nbRows }
    forRange 0 nbColumns (columnBodyLog N nbRows nbColumns) (decomposition, [])

/-- The divisors of the divisions a run has carried out. -/
def divisors : Except (DomainError × List K) (Decomposition K × List K) → List K
  | .error e => e.2
  | .ok s => s.2

/-- The outcome of a run without its record of divisions. -/
def forget : Except (DomainError × List K) (Decomposition K × List K) →
    Except DomainError (Decomposition K)
  | .error e => .error e.1
  | .ok s => .ok s.1

/-- The state in which the loop over the pivot columns starts. -/
def start (matrix : Matrix K) : Decomposition K :=
  { L := MatrixFactory.IdentityMatrix matrix.rows, U := matrix }

/-- The state of `Decompose` when the loop over the pivot columns has completed
the columns below `c`, or the exception thrown on the way. -/
def afterColumns (N : Scalar K) (matrix : Matrix K) (c : Nat) :
    Except DomainError (Decomposition K) :=
  forLoop (columnBody N matrix.rows matrix.columns) c 0 (start matrix)

/-- Closed form of the innermost loop run over the columns `start ≤ j < start + count`
of row `row`. -/
def rowElim (row column start count : Nat) (d : Decomposition K) : Decomposition K :=
  { d with
    U := { d.U with
      data := fun i j =>
        if i = row ∧ start ≤ j ∧ j < start + count then
          d.U.data i j - d.L.data row column * d.U.data column j
        else d.U.data i j } }

/-- Closed form of one pass of the row loop at `(row, column)` once the pivot has
been accepted. -/
def rowStep (nbColumns column row : Nat) (d : Decomposition K) : Decomposition K :=
  rowElim row column column (nbColumns - column)
    { d with L := d.L.set row column (d.U.get row column / d.U.get column column) }

/-- Closed form of the row loop over the rows `start ≤ i < start + count` for the
pivot column `column`, once the pivot has been accepted. -/
def elimRows (n column start count : Nat) (d : Decomposition K) : Decomposition K :=
  { L := { d.L with
      data := fun i j =>
        if j = column ∧ start ≤ i ∧ i < start + count then
          d.U.data i column / d.U.data column column
        else d.L.data i j }
    U := { d.U with
      data := fun i j =>
        if (start ≤ i ∧ i < start + count) ∧ column ≤ j ∧ j < n then
          d.U.data i j - d.U.data i column / d.U.data column column * d.U.data column j
        else d.U.data i j } }

/-- Closed form of one pass of the loop over the pivot columns, once the pivot
has been accepted: the rows below `column` are eliminated. -/
def elim (n column : Nat) (d : Decomposition K) : Decomposition K :=
  elimRows n column (column + 1) (n - (column + 1)) d

/-- The state after the pivot columns below `c` have been eliminated, every pivot
on the way being accepted. -/
def elimUpTo (n : Nat) : Nat → Decomposition K → Decomposition K
  | 0, d => d
  | c + 1, d => elim n c (elimUpTo n c d)

/-- The divisors used while the pivot columns below `c` are eliminated, every
pivot on the way being accepted: each pivot once for every row below it. -/
def divisorsUpTo (n : Nat) : Nat → Decomposition K → List K
  | 0, _ => []
  | c + 1, d => divisorsUpTo n c d ++ List.replicate (n - (c + 1)) ((elimUpTo n c d).U.get c c)

/-- The multiplier of row `k` at the pivot column `c`. -/
def multiplier (c : Nat) (d : Decomposition K) (k : Nat) : K :=
  if c < k then d.U.data k c / d.U.data c c else 0

/-- The singular matrix `[[1,1],[1,1]]`. -/
def onesMatrix : Matrix K :=
  Matrix.ofList 2 2 [1, 1, 1, 1]

/-- Following the spec's remark that the rows of one pivot column are independent:
the pass over a pivot column with `rowBody` run on the rows of `order`, in the order
of that list, in the place of the ascending loop of `columnBody`. -/
def columnBodyIn (N : Scalar K) (nbColumns column : Nat) :
    List Nat → Decomposition K → Except DomainError (Decomposition K)
  | [], d => .ok d
  | row :: rest, d =>
    match rowBody N nbColumns column row d with
    | .error e => .error e
    | .ok d' => columnBodyIn N nbColumns column rest d'

/-- Closed form of the pass over the pivot column `column` for the rows of `order`,
once the pivot has been accepted. -/
def elimIn (n column : Nat) (order : List Nat) (d : Decomposition K) : Decomposition K :=
  { L := { d.L with
      data := fun i j =>
        if j = column ∧ i ∈ order then d.U.data i column / d.U.data column column
        else d.L.data i j }
    U := { d.U with
      data := fun i j =>
        if i ∈ order ∧ column ≤ j ∧ j < n then
          d.U.data i j - d.U.data i column / d.U.data column column * d.U.data column j
        else d.U.data i j } }

end Operations

section Exact

variable {K : Type} [Field K]

/-- The state of the elimination of the `n × n` matrix `A` once the pivot columns
below `c` are done: the shapes, `L · U = A`, `L` unit lower triangular with the
columns from `c` on still those of the identity, and the columns of `U` below
`c` cleared under the diagonal. -/
structure Inv (n : Nat) (A : Matrix K) (c : Nat) (d : Decomposition K) : Prop where
  rowsL : d.L.rows = n
  columnsL : d.L.columns = n
  rowsU : d.U.rows = n
  columnsU : d.U.columns = n
  prod : ∀ i, i < n → ∀ j, j < n →
    ∑ k ∈ Finset.range n, d.L.data i k * d.U.data k j = A.data i j
  diag : ∀ i, i < n → d.L.data i i = 1
  upper : ∀ i j, i < j → j < n → d.L.data i j = 0
  ident : ∀ i j, c ≤ j → j < i → i < n → d.L.data i j = 0
  lowerU : ∀ i j, j < c → j < i → i < n → d.U.data i j = 0

end Exact

end LUDecomposition

/-- The leading principal minor of order `k`: the determinant of the top-left
`k × k` block. -/
def leadingMinor {K : Type} [Field K] (A : Matrix K) (k : Nat) : K :=
  Matrix.det (Matrix.of fun (i j : Fin k) => A.get i j)

/-- The value of `std::numeric_limits<double>::min()`, the smallest positive
normal double. -/
def doubleMin : ℚ :=
  1 / 2 ^ 1022

/-- The matrix of the first test and of the worked example. -/
def testMatrix1 : Matrix ℚ :=
  Matrix.ofList 3 3 [1, 2, 3, 1, 1, 1, 3, 3, 1]

/-- The matrix of the second test. -/
def testMatrix2 : Matrix ℚ :=
  Matrix.ofList 3 3 [21 / 10, 2512, -2516, -13 / 10, 88 / 10, -76 / 10, 9 / 10, -62 / 10, 46 / 10]

/-- The matrix built by the third test. -/
def testMatrix3 : Matrix ℚ :=
  Matrix.ofList 3 3 [0, 2, 3, 0, 1, 1, 0, 3, 1]

/-- The matrix drawn in the comment of the third test and in the spec. -/
def specMatrix3 : Matrix ℚ :=
  Matrix.ofList 3 3 [0, 2, 3, 1, 0, 1, 3, 3, 0]

/-- The values of the C++ type `double` (IEEE 754 binary64), the element type of the
tests. A finite value is a whole number of quanta of `2^-1074`, the smallest positive
double. The sign of a zero and the payload of a NaN are left out: `Decompose` has no
branch and no non-zero result that depends on them. -/
inductive Double where
  | finite (quanta : Int)
  | infinite (negative : Bool)
  | nan
  deriving DecidableEq

namespace Double

/-- The loop of `log2`. -/
def log2Loop : Nat → Nat → Nat
  | 0, _ => 0
  | fuel + 1, n => if n < 2 then 0 else log2Loop fuel (n / 2) + 1

/-- The position of the leading binary digit of `n` (`0` for `n < 2`). -/
def log2 (n : Nat) : Nat :=
  log2Loop n n

/-- Rounding to `double`, to nearest with ties to even (the default rounding mode): the
double nearest to `num / den` quanta, with the sign `negative`. Below `2^53` quanta
the doubles are one quantum apart, which covers the subnormal numbers; above, the
spacing is `2^shift` quanta so that 53 binary digits are kept; a result from `2^1024`
on overflows to an infinity. -/
def round (negative : Bool) (num den : Nat) : Double :=
  let shift := log2 (num / den) - 52
  let step := den <<< shift
  let k := num / step
  let r := num % step
  let k' :=
    if 2 * r < step then k
    else if step < 2 * r then k + 1
    else if k % 2 = 0 then k
    else k + 1
  let n := k' <<< shift
  if 1 <<< 2098 ≤ n then infinite negative
  else finite (if negative then -(n : Int) else (n : Int))

/-- The double nearest to `m * 2^e`, for `e ≥ -1074`; it is that number itself when `m`
has at most 53 binary digits and `m * 2^e < 2^1024`. -/
def dyadic (m : Int) (e : Int) : Double :=
  round (decide (m < 0)) (m.natAbs <<< (e + 1074).toNat) 1

/-- The operation `-x`. -/
def neg : Double → Double
  | finite a => finite (-a)
  | infinite s => infinite (!s)
  | nan => nan

/-- The operation `x + y`: the exact sum rounded; opposite infinities give a NaN. -/
def add : Double → Double → Double
  | finite a, finite b => round (decide (a + b < 0)) (a + b).natAbs 1
  | finite _, infinite s => infinite s
  | infinite s, finite _ => infinite s
  | infinite s, infinite t => if s = t then infinite s else nan
  | _, _ => nan

/-- The operation `x - y`. -/
def sub (x y : Double) : Double :=
  add x (neg y)

/-- The operation `x * y`: the exact product rounded; zero times an infinity gives a
NaN. -/
def mul : Double → Double → Double
  | finite a, finite b => round (decide (a * b < 0)) (a * b).natAbs (1 <<< 1074)
  | finite a, infinite s => if a = 0 then nan else infinite (s != decide (a < 0))
  | infinite s, finite b => if b = 0 then nan else infinite (s != decide (b < 0))
  | infinite s, infinite t => infinite (s != t)
  | _, _ => nan

/-- The operation `x / y`: the exact quotient rounded; `0 / 0` and a quotient of
infinities give a NaN, another quotient by zero an infinity. -/
def div : Double → Double → Double
  | finite a, finite b =>
    if b = 0 then (if a = 0 then nan else infinite (decide (a < 0)))
    else round (decide (a < 0) != decide (b < 0)) (a.natAbs <<< 1074) b.natAbs
  | finite _, infinite _ => finite 0
  | infinite s, finite b => infinite (s != decide (b < 0))
  | _, _ => nan

/-- The function `std::fabs`. -/
def fabs : Double → Double
  | finite a => finite (a.natAbs : Int)
  | infinite _ => infinite false
  | nan => nan

/-- The comparison `x < y`, false as soon as one side is a NaN. -/
def lt : Double → Double → Bool
  | finite a, finite b => decide (a < b)
  | finite _, infinite s => !s
  | infinite s, finite _ => s
  | infinite s, infinite t => s && !t
  | _, _ => false

/-- The comparison `x <= y`, false as soon as one side is a NaN. -/
def le : Double → Double → Bool
  | finite a, finite b => decide (a ≤ b)
  | finite _, infinite s => !s
  | infinite s, finite _ => s
  | infinite s, infinite t => s || !t
  | _, _ => false

instance : Zero Double := ⟨finite 0⟩

instance : One Double := ⟨dyadic 1 0⟩

instance : Add Double := ⟨add⟩

instance : Sub Double := ⟨sub⟩

instance : Mul Double := ⟨mul⟩

instance : Div Double := ⟨div⟩

instance (n : Nat) : OfNat Double n := ⟨dyadic n 0⟩

end Double

/-- The element type `double` as `Decompose` sees it: `std::fabs`, `<` and
`std::numeric_limits<double>::min() = 2^-1022`. -/
def doubleScalar : Scalar Double :=
  { fabs := Double.fabs
    lt := Double.lt
    min := Double.dyadic 1 (-1022) }

/-- The matrix `[[2^-1022, 0, 0], [2^1000, 1, 0], [0, 1, 1]]` of doubles. -/
def nanMatrix : Matrix Double :=
  Matrix.ofList 3 3 [Double.dyadic 1 (-1022), 0, 0, Double.dyadic 1 1000, 1, 0, 0, 1, 1]

/-! Properties of the loops. -/

theorem forLoop_add {σ ε : Type} (body : Nat → σ → Except ε σ) (a b i : Nat) (s : σ) :
    forLoop body (a + b) i s =
      match forLoop body a i s with
      | .error e => .error e
      | .ok s' => forLoop body b (i + a) s' := by
  induction a generalizing i s with
  | zero => simp [forLoop]
  | succ k ih =>
    rw [show k + 1 + b = (k + b) + 1 by omega]
    simp only [forLoop]
    cases body i s with
    | error e => rfl
    | ok s' =>
      simp only []
      rw [ih (i + 1) s', show i + 1 + k = i + (k + 1) by omega]

/-- A loop that throws does so in the body, after some completed iterations. -/
theorem forLoop_error {σ ε : Type} (body : Nat → σ → Except ε σ) (count i : Nat) (s : σ)
    (e : ε) (h : forLoop body count i s = .error e) :
    ∃ c s', c < count ∧ forLoop body c i s = .ok s' ∧ body (i + c) s' = .error e := by
  induction count generalizing i s with
  | zero => simp [forLoop] at h
  | succ k ih =>
    simp only [forLoop] at h
    cases hb : body i s with
    | error e' =>
      rw [hb] at h
      exact ⟨0, s, by omega, rfl, by rw [Nat.add_zero, hb, ← h]⟩
    | ok s1 =>
      rw [hb] at h
      obtain ⟨c, s', hc, hrun, hbody⟩ := ih (i + 1) s1 h
      refine ⟨c + 1, s', by omega, ?_, ?_⟩
      · simp only [forLoop, hb]
        exact hrun
      · rw [show i + (c + 1) = i + 1 + c by omega]
        exact hbody

/-- A body that throws after `c` completed iterations makes every longer loop throw. -/
theorem forLoop_error_of {σ ε : Type} (body : Nat → σ → Except ε σ) (count i c : Nat)
    (s s' : σ) (e : ε) (hc : c < count) (hrun : forLoop body c i s = .ok s')
    (hbody : body (i + c) s' = .error e) : forLoop body count i s = .error e := by
  rw [show count = c + ((count - c - 1) + 1) by omega, forLoop_add, hrun]
  simp only [forLoop, hbody]

namespace LUDecomposition

theorem forLoop_forget (body' : Nat → Decomposition K × List K →
      Except (DomainError × List K) (Decomposition K × List K))
    (body : Nat → Decomposition K → Except DomainError (Decomposition K))
    (h : ∀ i s, forget (body' i s) = body i s.1) (count i : Nat)
    (s : Decomposition K × List K) :
    forget (forLoop body' count i s) = forLoop body count i s.1 := by
  induction count generalizing i s with
  | zero => rfl
  | succ k ih =>
    simp only [forLoop]
    have hb := h i s
    cases hb' : body' i s with
    | error e =>
      rw [hb'] at hb
      simp only [forget] at hb
      rw [← hb]
      rfl
    | ok s1 =>
      rw [hb'] at hb
      simp only [forget] at hb
      rw [← hb]
      exact ih (i + 1) s1

theorem forLoop_divisors (P : K → Prop) (body' : Nat → Decomposition K × List K →
      Except (DomainError × List K) (Decomposition K × List K))
    (h : ∀ i s, (∀ p ∈ s.2, P p) → ∀ p ∈ divisors (body' i s), P p) (count i : Nat)
    (s : Decomposition K × List K) (hs : ∀ p ∈ s.2, P p) :
    ∀ p ∈ divisors (forLoop body' count i s), P p := by
  induction count generalizing i s with
  | zero => exact hs
  | succ k ih =>
    simp only [forLoop]
    have hb := h i s hs
    cases hb' : body' i s with
    | error e =>
      rw [hb'] at hb
      exact hb
    | ok s1 =>
      rw [hb'] at hb
      exact ih (i + 1) s1 hb

theorem forLoop_colBody {K : Type} [Zero K] [One K] [Sub K] [Mul K]
    [Div K] (row column : Nat) (h : row ≠ column) (count start : Nat)
    (d : Decomposition K) :
    forLoop (colBody row column) count start d = .ok (rowElim row column start count d) := by
  induction count generalizing start d with
  | zero =>
    simp only [forLoop, rowElim]
    congr 1
    cases d with
    | mk L U =>
      cases U with
      | mk r c f =>
        simp only [Decomposition.mk.injEq, Matrix.mk.injEq, true_and]
        funext i j
        rw [if_neg (by omega)]
  | succ k ih =>
    simp only [forLoop, colBody, ih, rowElim]
    congr 1
    cases d with
    | mk L U =>
      cases U with
      | mk r c f =>
        simp only [Decomposition.mk.injEq, Matrix.mk.injEq, true_and, Matrix.set, Matrix.get]
        funext i j
        by_cases h1 : i = row ∧ j = start
        · obtain ⟨rfl, rfl⟩ := h1
          have h2 : ¬ (i = i ∧ j + 1 ≤ j ∧ j < j + 1 + k) := by omega
          have h3 : (i = i ∧ j ≤ j ∧ j < j + (k + 1)) := by omega
          have h4 : ¬ (column = i ∧ j = j) := by
            rintro ⟨h5, -⟩
            exact h h5.symm
          simp [h2, h3, h4]
        · by_cases h2 : i = row ∧ start + 1 ≤ j ∧ j < start + 1 + k
          · have h3 : (i = row ∧ start ≤ j ∧ j < start + (k + 1)) := by omega
            have h4 : ¬ (column = row ∧ j = start) := by
              rintro ⟨h5, -⟩
              exact h h5.symm
            have h5 : j ≠ start := by omega
            simp [h2, h3, h4, h5]
          · have h3 : ¬ (i = row ∧ start ≤ j ∧ j < start + (k + 1)) := by omega
            simp [h1, h2, h3]

theorem rowBody_eq {K : Type} [Zero K] [One K] [Sub K] [Mul K]
    [Div K] (N : Scalar K) (nbColumns column row : Nat) (h : row ≠ column)
    (d : Decomposition K) :
    rowBody N nbColumns column row d =
      if N.negligible (d.U.get column column) = true then .error .divisionByZero
      else .ok (rowStep nbColumns column row d) := by
  simp only [rowBody, forRange, forLoop_colBody row column h, Scalar.negligible, rowStep]

theorem elimRows_zero {K : Type} [Zero K] [One K] [Sub K] [Mul K]
    [Div K] (n column start : Nat) (d : Decomposition K) :
    elimRows n column start 0 d = d := by
  cases d with
  | mk L U =>
    cases L with
    | mk r1 c1 f1 =>
      cases U with
      | mk r2 c2 f2 =>
        simp only [elimRows, Decomposition.mk.injEq, Matrix.mk.injEq, true_and]
        refine ⟨?_, ?_⟩ <;> funext i j <;> rw [if_neg (by omega)]

theorem elimRows_succ {K : Type} [Zero K] [One K] [Sub K] [Mul K]
    [Div K] (n column start k : Nat) (h : column < start) (d : Decomposition K) :
    elimRows n column (start + 1) k (rowStep n column start d) =
      elimRows n column start (k + 1) d := by
  have hne : start ≠ column := by omega
  have hne2 : column ≠ start := by omega
  cases d with
  | mk L U =>
    cases L with
    | mk r1 c1 f1 =>
      cases U with
      | mk r2 c2 f2 =>
        simp only [elimRows, rowStep, rowElim, Matrix.set, Matrix.get, Decomposition.mk.injEq,
          Matrix.mk.injEq, true_and]
        refine ⟨?_, ?_⟩
        · funext i j
          by_cases h1 : j = column ∧ start + 1 ≤ i ∧ i < start + 1 + k
          · have h2 : j = column ∧ start ≤ i ∧ i < start + (k + 1) := by omega
            have h3 : i ≠ start := by omega
            simp [h1, h2, h3, hne, hne2]
          · by_cases h4 : i = start ∧ j = column
            · have h2 : j = column ∧ start ≤ i ∧ i < start + (k + 1) := by omega
              simp [h1, h2, h4, hne, hne2]
            · have h2 : ¬ (j = column ∧ start ≤ i ∧ i < start + (k + 1)) := by omega
              simp [h1, h2, h4, hne, hne2]
        · funext i j
          by_cases h1 : (start + 1 ≤ i ∧ i < start + 1 + k) ∧ column ≤ j ∧ j < n
          · have h2 : (start ≤ i ∧ i < start + (k + 1)) ∧ column ≤ j ∧ j < n := by omega
            have h3 : i ≠ start := by omega
            simp [h1, h2, h3, hne, hne2]
          · by_cases h4 : i = start ∧ column ≤ j ∧ j < n
            · have h2 : (start ≤ i ∧ i < start + (k + 1)) ∧ column ≤ j ∧ j < n := by omega
              have h5 : i = start ∧ column ≤ j ∧ j < column + (n - column) := by omega
              simp [h1, h2, h4, h5, hne, hne2]
            · have h2 : ¬ ((start ≤ i ∧ i < start + (k + 1)) ∧ column ≤ j ∧ j < n) := by omega
              have h5 : ¬ (i = start ∧ column ≤ j ∧ j < column + (n - column)) := by omega
              simp [h1, h2, h4, h5, hne, hne2]

theorem rowStep_pivot {K : Type} [Zero K] [One K] [Sub K] [Mul K]
    [Div K] (n column row : Nat) (h : row ≠ column) (d : Decomposition K) :
    (rowStep n column row d).U.get column column = d.U.get column column := by
  have h2 : ¬ (column = row ∧ column ≤ column ∧ column < column + (n - column)) := by
    rintro ⟨h3, -⟩
    exact h h3.symm
  simp only [rowStep, rowElim, Matrix.get, if_neg h2]

theorem forLoop_rowBody {K : Type} [Zero K] [One K] [Sub K] [Mul K]
    [Div K] (N : Scalar K) (n column : Nat) (count start : Nat)
    (h : column < start) (d : Decomposition K) :
    forLoop (rowBody N n column) count start d =
      if 0 < count ∧ N.negligible (d.U.get column column) = true then .error .divisionByZero
      else .ok (elimRows n column start count d) := by
  induction count generalizing start d with
  | zero => simp [forLoop, elimRows_zero]
  | succ k ih =>
    have hne : start ≠ column := by omega
    simp only [forLoop, rowBody_eq N n column start hne]
    by_cases hp : N.negligible (d.U.get column column) = true
    · simp [hp]
    · rw [if_neg hp, if_neg (fun hc => hp hc.2)]
      show forLoop (rowBody N n column) k (start + 1) (rowStep n column start d) = _
      rw [ih (start + 1) (by omega), rowStep_pivot n column start hne,
        elimRows_succ n column start k h, if_neg (fun hc => hp hc.2)]

theorem columnBody_eq {K : Type} [Zero K] [One K] [Sub K] [Mul K]
    [Div K] (N : Scalar K) (n column : Nat) (d : Decomposition K) :
    columnBody N n n column d =
      if column + 1 < n ∧ N.negligible (d.U.get column column) = true then
        .error .divisionByZero
      else .ok (elim n column d) := by
  simp only [columnBody, forRange, forLoop_rowBody N n column _ _ (Nat.lt_succ_self column),
    elim]
  have : (0 < n - (column + 1)) ↔ column + 1 < n := by omega
  simp only [this]

theorem elim_L {K : Type} [Zero K] [One K] [Sub K] [Mul K]
    [Div K] (n c : Nat) (d : Decomposition K) (i j : Nat) :
    (elim n c d).L.data i j =
      if j = c ∧ c < i ∧ i < n then d.U.data i c / d.U.data c c else d.L.data i j := by
  simp only [elim, elimRows]
  by_cases h : j = c ∧ c < i ∧ i < n
  · rw [if_pos h, if_pos (by omega)]
  · rw [if_neg h, if_neg (by omega)]

theorem forLoop_columnBody_eq {K : Type} [Zero K] [One K] [Sub K] [Mul K]
    [Div K] (N : Scalar K) (n count : Nat) (d : Decomposition K) :
    forLoop (columnBody N n n) count 0 d =
      if ∃ c, c < count ∧ c + 1 < n ∧ N.negligible ((elimUpTo n c d).U.get c c) = true then
        .error .divisionByZero
      else .ok (elimUpTo n count d) := by
  induction count with
  | zero => simp [forLoop, elimUpTo]
  | succ k ih =>
    rw [forLoop_add, ih]
    by_cases h1 : ∃ c, c < k ∧ c + 1 < n ∧ N.negligible ((elimUpTo n c d).U.get c c) = true
    · obtain ⟨c, hc, hcn, hneg⟩ := h1
      rw [if_pos ⟨c, hc, hcn, hneg⟩, if_pos ⟨c, by omega, hcn, hneg⟩]
    · rw [if_neg h1]
      simp only [forLoop, Nat.zero_add, columnBody_eq]
      by_cases h2 : k + 1 < n ∧ N.negligible ((elimUpTo n k d).U.get k k) = true
      · rw [if_pos h2, if_pos ⟨k, by omega, h2.1, h2.2⟩]
      · rw [if_neg h2, if_neg]
        · rfl
        · rintro ⟨c, hc, hcn, hneg⟩
          rcases Nat.lt_succ_iff_lt_or_eq.mp hc with h3 | h3
          · exact h1 ⟨c, h3, hcn, hneg⟩
          · subst h3
            exact h2 ⟨hcn, hneg⟩

theorem afterColumns_square {K : Type} [Zero K] [One K] [Sub K] [Mul K]
    [Div K] (N : Scalar K) (A : Matrix K) (h : A.rows = A.columns) (c : Nat) :
    afterColumns N A c = forLoop (columnBody N A.rows A.rows) c 0 (start A) := by
  rw [afterColumns, ← h]

theorem rowBodyLog_forget {K : Type} [Zero K] [One K] [Sub K] [Mul K]
    [Div K] (N : Scalar K) (n c r : Nat) (s : Decomposition K × List K) :
    forget (rowBodyLog N n c r s) = rowBody N n c r s.1 := by
  simp only [rowBodyLog, rowBody]
  by_cases hp : N.lt (N.fabs (s.1.U.get c c)) N.min = true
  · rw [if_pos hp, if_pos hp]
    rfl
  · rw [if_neg hp, if_neg hp]
    cases forRange c n (colBody r c)
      { s.1 with L := s.1.L.set r c (s.1.U.get r c / s.1.U.get c c) } with
    | error e => rfl
    | ok d2 => rfl

theorem rowBodyLog_divisors {K : Type} [Zero K] [One K] [Sub K] [Mul K]
    [Div K] (N : Scalar K) (n c r : Nat) (s : Decomposition K × List K)
    (hs : ∀ p ∈ s.2, ¬ N.negligible p = true) :
    ∀ p ∈ divisors (rowBodyLog N n c r s), ¬ N.negligible p = true := by
  simp only [rowBodyLog]
  by_cases hp : N.lt (N.fabs (s.1.U.get c c)) N.min = true
  · rw [if_pos hp]
    exact hs
  · rw [if_neg hp]
    have hall : ∀ p ∈ s.2 ++ [s.1.U.get c c], ¬ N.negligible p = true := by
      intro p hmem
      rcases List.mem_append.mp hmem with h1 | h1
      · exact hs p h1
      · rw [List.mem_singleton.mp h1]
        exact hp
    cases forRange c n (colBody r c)
      { s.1 with L := s.1.L.set r c (s.1.U.get r c / s.1.U.get c c) } with
    | error e => exact hall
    | ok d2 => exact hall

theorem columnBodyLog_forget {K : Type} [Zero K] [One K] [Sub K] [Mul K]
    [Div K] (N : Scalar K) (m n c : Nat) (s : Decomposition K × List K) :
    forget (columnBodyLog N m n c s) = columnBody N m n c s.1 :=
  forLoop_forget (rowBodyLog N n c) (rowBody N n c) (rowBodyLog_forget N n c) _ _ s

theorem columnBodyLog_divisors {K : Type} [Zero K] [One K] [Sub K] [Mul K]
    [Div K] (N : Scalar K) (m n c : Nat) (s : Decomposition K × List K)
    (hs : ∀ p ∈ s.2, ¬ N.negligible p = true) :
    ∀ p ∈ divisors (columnBodyLog N m n c s), ¬ N.negligible p = true :=
  forLoop_divisors (fun p => ¬ N.negligible p = true) (rowBodyLog N n c)
    (rowBodyLog_divisors N n c) _ _ s hs

theorem DecomposeLog_forget {K : Type} [Zero K] [One K] [Sub K] [Mul K]
    [Div K] (N : Scalar K) (A : Matrix K) :
    forget (DecomposeLog N A) = Decompose N A := by
  simp only [DecomposeLog, Decompose]
  by_cases hsq : A.rows ≠ A.columns
  · rw [if_pos hsq, if_pos hsq]
    rfl
  · rw [if_neg hsq, if_neg hsq]
    exact forLoop_forget (columnBodyLog N A.rows A.columns) (columnBody N A.rows A.columns)
      (columnBodyLog_forget N A.rows A.columns) _ _ _

theorem DecomposeLog_divisors {K : Type} [Zero K] [One K] [Sub K] [Mul K]
    [Div K] (N : Scalar K) (A : Matrix K) :
    ∀ p ∈ divisors (DecomposeLog N A), ¬ N.negligible p = true := by
  simp only [DecomposeLog]
  by_cases hsq : A.rows ≠ A.columns
  · rw [if_pos hsq]
    intro p hp
    cases hp
  · rw [if_neg hsq]
    refine forLoop_divisors (fun p => ¬ N.negligible p = true)
      (columnBodyLog N A.rows A.columns) (columnBodyLog_divisors N A.rows A.columns) _ _ _ ?_
    intro p hp
    cases hp

variable {K : Type} [Field K]

theorem Inv_init (n : Nat) (A : Matrix K) (hr : A.rows = n) (hc : A.columns = n) :
    Inv n A 0 { L := MatrixFactory.IdentityMatrix n, U := A } where
  rowsL := rfl
  columnsL := rfl
  rowsU := hr
  columnsU := hc
  prod := by
    intro i hi j _
    simp only [MatrixFactory.IdentityMatrix, ite_mul, one_mul, zero_mul]
    rw [Finset.sum_ite_eq]
    simp [hi]
  diag := by
    intro i _
    simp [MatrixFactory.IdentityMatrix]
  upper := by
    intro i j hij _
    have : i ≠ j := by omega
    simp [MatrixFactory.IdentityMatrix, this]
  ident := by
    intro i j _ hij _
    have : i ≠ j := by omega
    simp [MatrixFactory.IdentityMatrix, this]
  lowerU := by
    intro i j hj
    omega

theorem elim_U (n c : Nat) (d : Decomposition K) (i j : Nat) :
    (elim n c d).U.data i j =
      if (c < i ∧ i < n) ∧ c ≤ j ∧ j < n then
        d.U.data i j - d.U.data i c / d.U.data c c * d.U.data c j
      else d.U.data i j := by
  simp only [elim, elimRows]
  by_cases h : (c < i ∧ i < n) ∧ c ≤ j ∧ j < n
  · rw [if_pos h, if_pos (by omega)]
  · rw [if_neg h, if_neg (by omega)]

theorem Inv_elim (n : Nat) (A : Matrix K) (c : Nat) (d : Decomposition K)
    (hinv : Inv n A c d) (hc : c < n) (hp : c + 1 < n → d.U.data c c ≠ 0) :
    Inv n A (c + 1) (elim n c d) where
  rowsL := hinv.rowsL
  columnsL := hinv.columnsL
  rowsU := hinv.rowsU
  columnsU := hinv.columnsU
  prod := by
    intro i hi j hj
    have hL : ∀ k, k < n → (elim n c d).L.data i k =
        d.L.data i k + (if k = c then multiplier c d i else 0) := by
      intro k hk
      rw [elim_L, multiplier]
      by_cases h1 : k = c
      · subst h1
        by_cases h2 : k < i
        · rw [if_pos ⟨rfl, h2, hi⟩, if_pos rfl, if_pos h2, hinv.ident i k (le_refl k) h2 hi,
            zero_add]
        · rw [if_neg (fun h => h2 h.2.1), if_pos rfl, if_neg h2, add_zero]
      · rw [if_neg (fun h => h1 h.1), if_neg h1, add_zero]
    have hU : ∀ k, k < n → (elim n c d).U.data k j =
        d.U.data k j - multiplier c d k * d.U.data c j := by
      intro k hk
      rw [elim_U, multiplier]
      by_cases h1 : c < k
      · rw [if_pos h1]
        by_cases h2 : c ≤ j
        · rw [if_pos ⟨⟨h1, hk⟩, h2, hj⟩]
        · rw [if_neg (fun h => h2 h.2.1), hinv.lowerU c j (by omega) (by omega) hc, mul_zero,
            sub_zero]
      · rw [if_neg (fun h => h1 h.1.1), if_neg h1, zero_mul, sub_zero]
    have hLm : ∀ k, k < n → d.L.data i k * multiplier c d k =
        if i = k then multiplier c d i else 0 := by
      intro k hk
      by_cases h1 : c < k
      · rcases Nat.lt_trichotomy i k with h2 | h2 | h2
        · rw [hinv.upper i k h2 hk, zero_mul, if_neg (by omega)]
        · subst h2
          rw [hinv.diag i hi, one_mul, if_pos rfl]
        · rw [hinv.ident i k (by omega) h2 hi, zero_mul, if_neg (by omega)]
      · have h2 : multiplier c d k = 0 := by simp [multiplier, h1]
        rw [h2, mul_zero]
        by_cases h3 : i = k
        · subst h3
          rw [if_pos rfl, h2]
        · rw [if_neg h3]
    have hmc : multiplier c d c = 0 := by simp [multiplier]
    have hsum1 : ∑ k ∈ Finset.range n, d.L.data i k * multiplier c d k = multiplier c d i := by
      rw [Finset.sum_congr rfl (fun k hk => hLm k (Finset.mem_range.mp hk)), Finset.sum_ite_eq]
      simp [hi]
    have hsum2 : ∑ k ∈ Finset.range n, (if k = c then multiplier c d i else 0) *
        (d.U.data k j - multiplier c d k * d.U.data c j) = multiplier c d i * d.U.data c j := by
      simp only [ite_mul, zero_mul]
      rw [Finset.sum_ite_eq']
      simp [hc, hmc]
    calc ∑ k ∈ Finset.range n, (elim n c d).L.data i k * (elim n c d).U.data k j
        = ∑ k ∈ Finset.range n, (d.L.data i k * d.U.data k j
            - d.L.data i k * multiplier c d k * d.U.data c j
            + (if k = c then multiplier c d i else 0) *
              (d.U.data k j - multiplier c d k * d.U.data c j)) := by
          refine Finset.sum_congr rfl (fun k hk => ?_)
          rw [hL k (Finset.mem_range.mp hk), hU k (Finset.mem_range.mp hk)]
          ring
      _ = ∑ k ∈ Finset.range n, d.L.data i k * d.U.data k j
            - (∑ k ∈ Finset.range n, d.L.data i k * multiplier c d k) * d.U.data c j
            + multiplier c d i * d.U.data c j := by
          rw [Finset.sum_add_distrib, Finset.sum_sub_distrib, hsum2, Finset.sum_mul]
      _ = A.data i j := by
          rw [hsum1, hinv.prod i hi j hj]
          ring
  diag := by
    intro i hi
    rw [elim_L, if_neg (by omega), hinv.diag i hi]
  upper := by
    intro i j hij hj
    rw [elim_L, if_neg (by omega), hinv.upper i j hij hj]
  ident := by
    intro i j hcj hji hi
    rw [elim_L, if_neg (by omega), hinv.ident i j (by omega) hji hi]
  lowerU := by
    intro i j hj hji hi
    rw [elim_U]
    by_cases h1 : j = c
    · subst h1
      rw [if_pos ⟨⟨hji, hi⟩, le_refl j, hc⟩, div_mul_cancel₀ _ (hp (by omega)), sub_self]
    · rw [if_neg (by omega), hinv.lowerU i j (by omega) hji hi]

/-- An accepted pivot is not zero as soon as zero itself is negligible. -/
theorem ne_zero_of_not_negligible (N : Scalar K) (hN : N.negligible 0 = true) (x : K)
    (hx : ¬ N.negligible x = true) : x ≠ 0 := by
  rintro rfl
  exact hx hN

theorem forLoop_columnBody_error (N : Scalar K) (n count c : Nat) (d : Decomposition K)
    (e : DomainError) (h : forLoop (columnBody N n n) count c d = .error e) :
    e = .divisionByZero := by
  induction count generalizing c d with
  | zero => simp [forLoop] at h
  | succ k ih =>
    simp only [forLoop, columnBody_eq] at h
    by_cases hp : c + 1 < n ∧ N.negligible (d.U.get c c) = true
    · rw [if_pos hp] at h
      injection h with h
      exact h.symm
    · rw [if_neg hp] at h
      exact ih (c + 1) _ h

theorem forLoop_columnBody_inv (N : Scalar K) (hN : N.negligible 0 = true) (n : Nat)
    (A : Matrix K) (count c : Nat) (d d' : Decomposition K) (hcn : c + count ≤ n)
    (hinv : Inv n A c d) (h : forLoop (columnBody N n n) count c d = .ok d') :
    Inv n A (c + count) d' := by
  induction count generalizing c d with
  | zero =>
    simp only [forLoop, Except.ok.injEq] at h
    subst h
    exact hinv
  | succ k ih =>
    simp only [forLoop, columnBody_eq] at h
    by_cases hp : c + 1 < n ∧ N.negligible (d.U.get c c) = true
    · rw [if_pos hp] at h
      cases h
    · rw [if_neg hp] at h
      have hstep : Inv n A (c + 1) (elim n c d) :=
        Inv_elim n A c d hinv (by omega)
          (fun hlt => ne_zero_of_not_negligible N hN _ (fun hneg => hp ⟨hlt, hneg⟩))
      have := ih (c + 1) (elim n c d) (by omega) hstep h
      rwa [show c + 1 + k = c + (k + 1) by omega] at this

theorem Decompose_square (N : Scalar K) (A : Matrix K) (h : A.rows = A.columns) :
    Decompose N A = forLoop (columnBody N A.rows A.rows) A.rows 0 (start A) := by
  simp only [Decompose, h, ne_eq, not_true_eq_false, if_false, forRange, Decomposition.init,
    start, Nat.sub_zero]

theorem Decompose_not_square (N : Scalar K) (A : Matrix K) (h : A.rows ≠ A.columns) :
    Decompose N A = .error .notSquare := by
  simp only [Decompose, ne_eq, h, not_false_eq_true, if_true]

theorem Decompose_ok_square (N : Scalar K) (A : Matrix K) (d : Decomposition K)
    (h : Decompose N A = .ok d) : A.rows = A.columns := by
  by_contra hne
  rw [Decompose_not_square N A hne] at h
  cases h

theorem Decompose_inv (N : Scalar K) (hN : N.negligible 0 = true) (A : Matrix K)
    (d : Decomposition K) (h : Decompose N A = .ok d) : Inv A.rows A A.rows d := by
  have hsq := Decompose_ok_square N A d h
  rw [Decompose_square N A hsq] at h
  have := forLoop_columnBody_inv N hN A.rows A A.rows 0 (start A) d (by omega)
    (Inv_init A.rows A rfl hsq.symm) h
  rwa [Nat.zero_add] at this

theorem mul_same_of_inv (A : Matrix K) (hsq : A.rows = A.columns) (d : Decomposition K)
    (hinv : Inv A.rows A A.rows d) : (d.L.mul d.U).Same A := by
  refine ⟨hinv.rowsL, ?_, ?_⟩
  · show d.U.columns = A.columns
    rw [hinv.columnsU, hsq]
  · intro i hi j hj
    have hi' : i < A.rows := by
      have : (d.L.mul d.U).rows = A.rows := hinv.rowsL
      omega
    have hj' : j < A.rows := by
      have : (d.L.mul d.U).columns = A.rows := hinv.columnsU
      omega
    show ∑ k ∈ Finset.range d.L.columns, d.L.data i k * d.U.data k j = A.data i j
    rw [hinv.columnsL]
    exact hinv.prod i hi' j hj'

theorem Decompose_mul_same (N : Scalar K) (hN : N.negligible 0 = true) (A : Matrix K)
    (d : Decomposition K) (h : Decompose N A = .ok d) : (d.L.mul d.U).Same A :=
  mul_same_of_inv A (Decompose_ok_square N A d h) d (Decompose_inv N hN A d h)

theorem ordered_negligible_zero {F : Type} [LinearOrderedField F] (tmin : F) (h : 0 < tmin) :
    (Scalar.ordered tmin).negligible 0 = true := by
  simp [Scalar.negligible, Scalar.ordered, h]

theorem ordered_negligible_iff {F : Type} [LinearOrderedField F] (tmin x : F) :
    (Scalar.ordered tmin).negligible x = true ↔ |x| < tmin := by
  simp [Scalar.negligible, Scalar.ordered]

theorem Decompose_ok_of_pivots (N : Scalar K) (A : Matrix K) (hsq : A.rows = A.columns)
    (hp : ∀ c, c + 1 < A.rows →
      ¬ N.negligible ((elimUpTo A.rows c (start A)).U.get c c) = true) :
    Decompose N A = .ok (elimUpTo A.rows A.rows (start A)) := by
  rw [Decompose_square N A hsq, forLoop_columnBody_eq, if_neg]
  rintro ⟨c, -, hcn, hneg⟩
  exact hp c hcn hneg

theorem columnBody_error_iff (N : Scalar K) (n c : Nat) (d : Decomposition K)
    (e : DomainError) :
    columnBody N n n c d = .error e ↔
      e = .divisionByZero ∧ c + 1 < n ∧ N.negligible (d.U.get c c) = true := by
  rw [columnBody_eq]
  by_cases hp : c + 1 < n ∧ N.negligible (d.U.get c c) = true
  · rw [if_pos hp]
    constructor
    · intro h
      injection h with h
      exact ⟨h.symm, hp⟩
    · rintro ⟨rfl, -⟩
      rfl
  · rw [if_neg hp]
    constructor
    · intro h
      cases h
    · rintro ⟨-, h⟩
      exact absurd h hp

theorem Decompose_divisionByZero_iff (N : Scalar K) (A : Matrix K) :
    Decompose N A = .error .divisionByZero ↔
      A.rows = A.columns ∧ ∃ c d, c + 1 < A.rows ∧ afterColumns N A c = .ok d ∧
        N.negligible (d.U.get c c) = true := by
  constructor
  · intro h
    have hsq : A.rows = A.columns := by
      by_contra hne
      rw [Decompose_not_square N A hne] at h
      cases h
    refine ⟨hsq, ?_⟩
    rw [Decompose_square N A hsq] at h
    obtain ⟨c, d, -, hrun, hbody⟩ := forLoop_error _ _ _ _ _ h
    rw [Nat.zero_add, columnBody_error_iff] at hbody
    exact ⟨c, d, hbody.2.1, by rw [afterColumns_square N A hsq]; exact hrun, hbody.2.2⟩
  · rintro ⟨hsq, c, d, hc, hrun, hneg⟩
    rw [afterColumns_square N A hsq] at hrun
    rw [Decompose_square N A hsq]
    refine forLoop_error_of _ A.rows 0 c _ d _ (by omega) hrun ?_
    rw [Nat.zero_add, columnBody_error_iff]
    exact ⟨rfl, hc, hneg⟩

theorem Decompose_notSquare_iff (N : Scalar K) (A : Matrix K) :
    Decompose N A = .error .notSquare ↔ A.rows ≠ A.columns := by
  constructor
  · intro h hsq
    rw [Decompose_square N A hsq] at h
    have := forLoop_columnBody_error N A.rows A.rows 0 (start A) _ h
    cases this
  · exact Decompose_not_square N A

theorem Decompose_ok_iff (N : Scalar K) (A : Matrix K) :
    (∃ d, Decompose N A = .ok d) ↔
      A.rows = A.columns ∧ ¬ ∃ c d, c + 1 < A.rows ∧ afterColumns N A c = .ok d ∧
        N.negligible (d.U.get c c) = true := by
  constructor
  · rintro ⟨d, hd⟩
    refine ⟨Decompose_ok_square N A d hd, fun hex => ?_⟩
    have := (Decompose_divisionByZero_iff N A).mpr ⟨Decompose_ok_square N A d hd, hex⟩
    rw [hd] at this
    cases this
  · rintro ⟨hsq, hno⟩
    cases hres : Decompose N A with
    | ok d => exact ⟨d, rfl⟩
    | error e =>
      exfalso
      cases e with
      | notSquare => exact (Decompose_notSquare_iff N A).mp hres hsq
      | divisionByZero => exact hno ((Decompose_divisionByZero_iff N A).mp hres).2

/-! The record of the divisions. -/

theorem elimUpTo_rows {K : Type} [Field K] (n c : Nat) (d : Decomposition K) :
    (elimUpTo n c d).L.rows = d.L.rows ∧ (elimUpTo n c d).L.columns = d.L.columns ∧
      (elimUpTo n c d).U.rows = d.U.rows ∧ (elimUpTo n c d).U.columns = d.U.columns := by
  induction c with
  | zero => exact ⟨rfl, rfl, rfl, rfl⟩
  | succ k ih => exact ih

theorem testMatrix1_L :
    (elimUpTo 3 3 (start testMatrix1)).L.toLists = [[1, 0, 0], [1, 1, 0], [3, 3, 1]] := by
  have hr := (elimUpTo_rows 3 3 (start testMatrix1)).1
  have hc := (elimUpTo_rows 3 3 (start testMatrix1)).2.1
  simp only [Matrix.toLists, hr, hc]
  simp [start, MatrixFactory.IdentityMatrix, List.range_succ, Matrix.get, elimUpTo, elim_L, elim_U,
    testMatrix1, Matrix.ofList]
  norm_num

theorem testMatrix1_U :
    (elimUpTo 3 3 (start testMatrix1)).U.toLists = [[1, 2, 3], [0, -1, -2], [0, 0, -2]] := by
  have hr := (elimUpTo_rows 3 3 (start testMatrix1)).2.2.1
  have hc := (elimUpTo_rows 3 3 (start testMatrix1)).2.2.2
  simp only [Matrix.toLists, hr, hc]
  simp [start, MatrixFactory.IdentityMatrix, List.range_succ, Matrix.get, elimUpTo, elim_L, elim_U,
    testMatrix1, Matrix.ofList]
  norm_num

/-- With non-zero pivots, the elimination keeps its invariant through every
pivot column. -/
theorem Inv_elimUpTo_of_pivots (A : Matrix K) (hsq : A.rows = A.columns)
    (hp : ∀ c, c + 1 < A.rows → (elimUpTo A.rows c (start A)).U.data c c ≠ 0)
    (c : Nat) (hc : c ≤ A.rows) : Inv A.rows A c (elimUpTo A.rows c (start A)) := by
  induction c with
  | zero => exact Inv_init A.rows A rfl hsq.symm
  | succ k ih => exact Inv_elim A.rows A k _ (ih (by omega)) (by omega) (hp k)

theorem testMatrix1_pivots (c : Nat) (hc : c + 1 < 3) :
    (elimUpTo 3 c (start testMatrix1)).U.get c c = 1 ∨
      (elimUpTo 3 c (start testMatrix1)).U.get c c = -1 := by
  have : c = 0 ∨ c = 1 := by omega
  rcases this with rfl | rfl
  · left
    simp [elimUpTo, start, testMatrix1, Matrix.ofList, Matrix.get]
  · right
    simp [elimUpTo, start, testMatrix1, Matrix.ofList, Matrix.get, elim_U]
    norm_num

theorem testMatrix1_ok (N : Scalar ℚ) (h1 : ¬ N.negligible 1 = true)
    (h2 : ¬ N.negligible (-1) = true) :
    Decompose N testMatrix1 = .ok (elimUpTo 3 3 (start testMatrix1)) := by
  refine Decompose_ok_of_pivots N testMatrix1 rfl (fun c hc => ?_)
  rcases testMatrix1_pivots c hc with h | h
  · exact fun hneg => h1 (h ▸ hneg)
  · exact fun hneg => h2 (h ▸ hneg)

theorem testMatrix1_inv : Inv 3 testMatrix1 3 (elimUpTo 3 3 (start testMatrix1)) := by
  refine Inv_elimUpTo_of_pivots testMatrix1 rfl (fun c hc => ?_) 3 (le_refl _)
  rcases testMatrix1_pivots c hc with h | h
  · simp only [Matrix.get] at h
    show (elimUpTo 3 c (start testMatrix1)).U.data c c ≠ 0
    rw [h]
    norm_num
  · simp only [Matrix.get] at h
    show (elimUpTo 3 c (start testMatrix1)).U.data c c ≠ 0
    rw [h]
    norm_num

theorem testMatrix2_pivots (c : Nat) (hc : c + 1 < 3) :
    (elimUpTo 3 c (start testMatrix2)).U.get c c = 21 / 10 ∨
      (elimUpTo 3 c (start testMatrix2)).U.get c c = 164204 / 105 := by
  have : c = 0 ∨ c = 1 := by omega
  rcases this with rfl | rfl
  · left
    simp [elimUpTo, start, testMatrix2, Matrix.ofList, Matrix.get]
  · right
    simp [elimUpTo, start, testMatrix2, Matrix.ofList, Matrix.get, elim_U]
    norm_num

theorem testMatrix2_ok (N : Scalar ℚ) (h1 : ¬ N.negligible (21 / 10) = true)
    (h2 : ¬ N.negligible (164204 / 105) = true) :
    Decompose N testMatrix2 = .ok (elimUpTo 3 3 (start testMatrix2)) := by
  refine Decompose_ok_of_pivots N testMatrix2 rfl (fun c hc => ?_)
  rcases testMatrix2_pivots c hc with h | h
  · exact fun hneg => h1 (h ▸ hneg)
  · exact fun hneg => h2 (h ▸ hneg)

theorem doubleMin_pos : 0 < doubleMin := by
  unfold doubleMin
  positivity

theorem doubleMin_le_one : doubleMin ≤ 1 := by
  unfold doubleMin
  rw [div_le_one (by positivity)]
  exact one_le_pow₀ (by norm_num)

theorem ordered_not_negligible (tmin x : ℚ) (h : tmin ≤ |x|) :
    ¬ (Scalar.ordered tmin).negligible x = true := by
  rw [ordered_negligible_iff]
  exact not_lt.mpr h

theorem doubleMin_zero : (Scalar.ordered doubleMin).negligible 0 = true :=
  ordered_negligible_zero doubleMin doubleMin_pos

theorem testMatrix1_double :
    Decompose (Scalar.ordered doubleMin) testMatrix1 =
      .ok (elimUpTo 3 3 (start testMatrix1)) :=
  testMatrix1_ok _
    (ordered_not_negligible _ _ (by rw [abs_one]; exact doubleMin_le_one))
    (ordered_not_negligible _ _ (by rw [abs_neg, abs_one]; exact doubleMin_le_one))

theorem testMatrix2_double :
    Decompose (Scalar.ordered doubleMin) testMatrix2 =
      .ok (elimUpTo 3 3 (start testMatrix2)) :=
  testMatrix2_ok _
    (ordered_not_negligible _ _ (le_trans doubleMin_le_one (by norm_num [abs_of_pos])))
    (ordered_not_negligible _ _ (le_trans doubleMin_le_one (by norm_num [abs_of_pos])))

/-! The claims. -/

/-- C1 (reconstruction). Whenever `Decompose` returns `(L, U)`, the product `L · U`
has the shape of the input and equals it entry for entry. The elements are those of
any field; the pivot test is one that rejects a zero pivot, as the positive
`std::numeric_limits<T>::min()` of a floating-point type makes it. -/
theorem Decompose_reconstruction (N : Scalar K) (hN : N.negligible 0 = true) (A : Matrix K)
    (d : Decomposition K) (h : Decompose N A = .ok d) : (d.L.mul d.U).Same A :=
  Decompose_mul_same N hN A d h

/-- C1 at the matrices of the first and the second test, with the threshold of
`double`. -/
theorem Decompose_reconstruction_witness :
    ((Scalar.ordered doubleMin).negligible 0 = true ∧
      Decompose (Scalar.ordered doubleMin) testMatrix1 = .ok (elimUpTo 3 3 (start testMatrix1)) ∧
      ((elimUpTo 3 3 (start testMatrix1)).L.mul (elimUpTo 3 3 (start testMatrix1)).U).Same
        testMatrix1) ∧
    (Decompose (Scalar.ordered doubleMin) testMatrix2 = .ok (elimUpTo 3 3 (start testMatrix2)) ∧
      ((elimUpTo 3 3 (start testMatrix2)).L.mul (elimUpTo 3 3 (start testMatrix2)).U).Same
        testMatrix2) :=
  ⟨⟨doubleMin_zero, testMatrix1_double,
      Decompose_reconstruction _ doubleMin_zero _ _ testMatrix1_double⟩,
    testMatrix2_double, Decompose_reconstruction _ doubleMin_zero _ _ testMatrix2_double⟩

/-- C2 (structural invariants). Whenever `Decompose` returns `(L, U)` on an `n × n`
input, `L` and `U` are `n × n`, `L` has `1` on its diagonal and `0` above it, and `U`
has `0` below its diagonal. -/
theorem Decompose_structure (N : Scalar K) (hN : N.negligible 0 = true) (A : Matrix K)
    (d : Decomposition K) (h : Decompose N A = .ok d) :
    (d.L.rows = A.rows ∧ d.L.columns = A.rows ∧ d.U.rows = A.rows ∧ d.U.columns = A.rows) ∧
      (∀ i, i < A.rows → d.L.get i i = 1) ∧
      (∀ i j, i < j → j < A.rows → d.L.get i j = 0) ∧
      (∀ i j, j < i → i < A.rows → d.U.get i j = 0) := by
  have hinv := Decompose_inv N hN A d h
  exact ⟨⟨hinv.rowsL, hinv.columnsL, hinv.rowsU, hinv.columnsU⟩, hinv.diag, hinv.upper,
    fun i j hji hi => hinv.lowerU i j (by omega) hji hi⟩

/-- C2 at the matrix of the first test, with the threshold of `double`. -/
theorem Decompose_structure_witness :
    (Scalar.ordered doubleMin).negligible 0 = true ∧
      Decompose (Scalar.ordered doubleMin) testMatrix1 = .ok (elimUpTo 3 3 (start testMatrix1)) ∧
      ((elimUpTo 3 3 (start testMatrix1)).L.rows = 3 ∧
        (elimUpTo 3 3 (start testMatrix1)).L.columns = 3 ∧
        (elimUpTo 3 3 (start testMatrix1)).U.rows = 3 ∧
        (elimUpTo 3 3 (start testMatrix1)).U.columns = 3) ∧
      (∀ i, i < 3 → (elimUpTo 3 3 (start testMatrix1)).L.get i i = 1) ∧
      (∀ i j, i < j → j < 3 → (elimUpTo 3 3 (start testMatrix1)).L.get i j = 0) ∧
      (∀ i j, j < i → i < 3 → (elimUpTo 3 3 (start testMatrix1)).U.get i j = 0) :=
  ⟨doubleMin_zero, testMatrix1_double,
    Decompose_structure _ doubleMin_zero _ _ testMatrix1_double⟩

/-- C4 (shape failure). `Decompose` throws "Matrix is not square." exactly when the
row count differs from the column count; so a `2 × 3` matrix with a zero in its
corner gets this exception and not "Division by 0.". -/
theorem Decompose_shape_failure (N : Scalar K) (A : Matrix K) :
    (Decompose N A = .error .notSquare ↔ A.rows ≠ A.columns) ∧
      Decompose N (Matrix.ofList 2 3 [0, 1, 2, 3, 4, 5]) = .error .notSquare ∧
      Decompose N (Matrix.ofList 2 3 [0, 1, 2, 3, 4, 5]) ≠ .error .divisionByZero := by
  refine ⟨Decompose_notSquare_iff N A, ?_, ?_⟩
  · exact Decompose_not_square N _ (by show (2 : Nat) ≠ 3; decide)
  · rw [Decompose_not_square N _ (by show (2 : Nat) ≠ 3; decide)]
    intro h
    cases h

theorem Decompose_zero_corner (N : Scalar K) (hN : N.negligible 0 = true) (A : Matrix K)
    (hsq : A.rows = A.columns) (hn : 2 ≤ A.rows) (h00 : A.get 0 0 = 0) :
    Decompose N A = .error .divisionByZero := by
  rw [Decompose_divisionByZero_iff]
  refine ⟨hsq, 0, start A, by omega, rfl, ?_⟩
  show N.negligible (A.get 0 0) = true
  rw [h00]
  exact hN

/-- C5 (singular-pivot failure). On every square matrix of size at least 2 whose
`(0,0)` element is zero, `Decompose` throws "Division by 0.". -/
theorem Decompose_singular_pivot (N : Scalar K) (hN : N.negligible 0 = true) (A : Matrix K)
    (hsq : A.rows = A.columns) (hn : 2 ≤ A.rows) (h00 : A.get 0 0 = 0) :
    Decompose N A = .error .divisionByZero :=
  Decompose_zero_corner N hN A hsq hn h00

/-- C5 at the matrix drawn in the spec and at the matrix the third test builds, with
the threshold of `double`. -/
theorem Decompose_singular_pivot_witness :
    (Scalar.ordered doubleMin).negligible 0 = true ∧
      Decompose (Scalar.ordered doubleMin) specMatrix3 = .error .divisionByZero ∧
      Decompose (Scalar.ordered doubleMin) testMatrix3 = .error .divisionByZero :=
  ⟨doubleMin_zero,
    Decompose_singular_pivot _ doubleMin_zero specMatrix3 rfl (by decide) (by
      simp [specMatrix3, Matrix.ofList, Matrix.get]),
    Decompose_singular_pivot _ doubleMin_zero testMatrix3 rfl (by decide) (by
      simp [testMatrix3, Matrix.ofList, Matrix.get])⟩

theorem testMatrix1_L_entries :
    (elimUpTo 3 3 (start testMatrix1)).L.get 1 0 = 1 ∧
      (elimUpTo 3 3 (start testMatrix1)).L.get 2 0 = 3 ∧
      (elimUpTo 3 3 (start testMatrix1)).L.get 2 1 = 3 := by
  simp [start, MatrixFactory.IdentityMatrix, Matrix.get, elimUpTo, elim_L, elim_U, testMatrix1,
    Matrix.ofList]
  norm_num

theorem testMatrix1_ordered (tmin : ℚ) (h : tmin ≤ 1) :
    Decompose (Scalar.ordered tmin) testMatrix1 = .ok (elimUpTo 3 3 (start testMatrix1)) :=
  testMatrix1_ok _
    (ordered_not_negligible _ _ (by rw [abs_one]; exact h))
    (ordered_not_negligible _ _ (by rw [abs_neg, abs_one]; exact h))

/-- C6, as the code has it. On the matrix of the worked example `Decompose` returns a
value as soon as the threshold is at most `1`, and the entries of `L` under the
diagonal are `L(1,0) = 1`, `L(2,0) = 3` and `L(2,1) = 3`. -/
theorem Decompose_example_L (tmin : ℚ) (h : tmin ≤ 1) :
    ∃ d, Decompose (Scalar.ordered tmin) testMatrix1 = .ok d ∧
      d.L.get 1 0 = 1 ∧ d.L.get 2 0 = 3 ∧ d.L.get 2 1 = 3 := by
  exact ⟨_, testMatrix1_ordered tmin h, testMatrix1_L_entries⟩

/-- C6 as the code has it, with the threshold of `double`. -/
theorem Decompose_example_L_witness :
    doubleMin ≤ 1 ∧ ∃ d, Decompose (Scalar.ordered doubleMin) testMatrix1 = .ok d ∧
      d.L.get 1 0 = 1 ∧ d.L.get 2 0 = 3 ∧ d.L.get 2 1 = 3 :=
  ⟨doubleMin_le_one, Decompose_example_L doubleMin doubleMin_le_one⟩

/-- C6 as the spec has it fails: on the matrix of the worked example the returned
`L(2,1)` is not `0`. -/
theorem Decompose_example_L_spec_fails :
    ¬ ∃ d, Decompose (Scalar.ordered doubleMin) testMatrix1 = .ok d ∧
      d.L.get 1 0 = 1 ∧ d.L.get 2 0 = 3 ∧ d.L.get 2 1 = 0 := by
  rintro ⟨d, hd, -, -, h21⟩
  rw [testMatrix1_double] at hd
  simp only [Except.ok.injEq] at hd
  subst hd
  rw [testMatrix1_L_entries.2.2] at h21
  norm_num at h21

theorem columnBody_ok (N : Scalar K) (m n c : Nat) (d : Decomposition K)
    (h : ¬ N.negligible (d.U.get c c) = true) : ∃ d', columnBody N m n c d = .ok d' := by
  simp only [columnBody, forRange, forLoop_rowBody N n c _ _ (Nat.lt_succ_self c)]
  rw [if_neg (fun hc => h hc.2)]
  exact ⟨_, rfl⟩

theorem afterColumns_succ (N : Scalar K) (A : Matrix K) (c : Nat) :
    afterColumns N A (c + 1) =
      match afterColumns N A c with
      | .error e => .error e
      | .ok d => columnBody N A.rows A.columns c d := by
  rw [afterColumns, afterColumns, forLoop_add]
  cases forLoop (columnBody N A.rows A.columns) c 0 (start A) with
  | error e => rfl
  | ok d =>
    simp only [forLoop, Nat.zero_add]
    cases columnBody N A.rows A.columns c d with
    | error e => rfl
    | ok d' => rfl

theorem rowBodyLog_eq (N : Scalar K) (n c r : Nat) (h : r ≠ c) (s : Decomposition K × List K) :
    rowBodyLog N n c r s =
      if N.negligible (s.1.U.get c c) = true then .error (.divisionByZero, s.2)
      else .ok (rowStep n c r s.1, s.2 ++ [s.1.U.get c c]) := by
  simp only [rowBodyLog, forRange, forLoop_colBody r c h, Scalar.negligible, rowStep]

theorem forLoop_rowBodyLog (N : Scalar K) (n c : Nat) (count start : Nat) (h : c < start)
    (s : Decomposition K × List K) :
    forLoop (rowBodyLog N n c) count start s =
      if 0 < count ∧ N.negligible (s.1.U.get c c) = true then .error (.divisionByZero, s.2)
      else .ok (elimRows n c start count s.1,
        s.2 ++ List.replicate count (s.1.U.get c c)) := by
  induction count generalizing start s with
  | zero => simp [forLoop, elimRows_zero]
  | succ k ih =>
    have hne : start ≠ c := by omega
    simp only [forLoop, rowBodyLog_eq N n c start hne]
    by_cases hp : N.negligible (s.1.U.get c c) = true
    · simp [hp]
    · rw [if_neg hp, if_neg (fun hc => hp hc.2)]
      show forLoop (rowBodyLog N n c) k (start + 1)
        (rowStep n c start s.1, s.2 ++ [s.1.U.get c c]) = _
      rw [ih (start + 1) (by omega)]
      simp only [rowStep_pivot n c start hne, elimRows_succ n c start k h]
      rw [if_neg (fun hc => hp hc.2), List.append_assoc, List.singleton_append,
        ← List.replicate_succ]

theorem columnBodyLog_eq (N : Scalar K) (n c : Nat) (s : Decomposition K × List K) :
    columnBodyLog N n n c s =
      if c + 1 < n ∧ N.negligible (s.1.U.get c c) = true then .error (.divisionByZero, s.2)
      else .ok (elim n c s.1, s.2 ++ List.replicate (n - (c + 1)) (s.1.U.get c c)) := by
  simp only [columnBodyLog, forRange, forLoop_rowBodyLog N n c _ _ (Nat.lt_succ_self c), elim]
  have : (0 < n - (c + 1)) ↔ c + 1 < n := by omega
  simp only [this]

theorem forLoop_columnBodyLog_ok (N : Scalar K) (n count : Nat) (d : Decomposition K)
    (hp : ∀ c, c < count → c + 1 < n →
      ¬ N.negligible ((elimUpTo n c d).U.get c c) = true) :
    forLoop (columnBodyLog N n n) count 0 (d, []) =
      .ok (elimUpTo n count d, divisorsUpTo n count d) := by
  induction count with
  | zero => rfl
  | succ k ih =>
    rw [forLoop_add, ih (fun c hc => hp c (by omega))]
    simp only [forLoop, Nat.zero_add, columnBodyLog_eq]
    rw [if_neg (fun hc => hp k (by omega) hc.1 hc.2)]
    rfl

theorem DecomposeLog_ok_of_pivots (N : Scalar K) (A : Matrix K) (hsq : A.rows = A.columns)
    (hp : ∀ c, c + 1 < A.rows →
      ¬ N.negligible ((elimUpTo A.rows c (start A)).U.get c c) = true) :
    DecomposeLog N A =
      .ok (elimUpTo A.rows A.rows (start A), divisorsUpTo A.rows A.rows (start A)) := by
  have := forLoop_columnBodyLog_ok N A.rows A.rows (start A) (fun c _ hc => hp c hc)
  rw [← this]
  simp only [DecomposeLog, hsq, ne_eq, not_true_eq_false, if_false, forRange,
    Decomposition.init, start, Nat.sub_zero]

theorem testMatrix1_divisors :
    divisors (DecomposeLog (Scalar.ordered doubleMin) testMatrix1) = [1, 1, -1] := by
  rw [DecomposeLog_ok_of_pivots _ testMatrix1 rfl]
  · show divisorsUpTo 3 3 (start testMatrix1) = _
    simp [divisorsUpTo, List.replicate, elimUpTo, start, testMatrix1, Matrix.ofList, Matrix.get,
      elim_U]
    norm_num
  · intro c hc
    rcases testMatrix1_pivots c hc with h | h
    · show ¬ (Scalar.ordered doubleMin).negligible ((elimUpTo 3 c (start testMatrix1)).U.get c c)
        = true
      rw [h]
      exact ordered_not_negligible _ _ (by rw [abs_one]; exact doubleMin_le_one)
    · show ¬ (Scalar.ordered doubleMin).negligible ((elimUpTo 3 c (start testMatrix1)).U.get c c)
        = true
      rw [h]
      exact ordered_not_negligible _ _ (by rw [abs_neg, abs_one]; exact doubleMin_le_one)

/-- C8 (failure characterisation). `Decompose` throws "Division by 0." exactly when
the input is square and, at some pivot column `c` with a row below it, the loop has
completed the columns before `c` and the magnitude of the current `U(c,c)` is
strictly below the threshold; it throws "Matrix is not square." exactly when the
input is not square; it returns a value in every other case; and a pivot whose
magnitude equals the threshold lets the loop complete its column. -/
theorem Decompose_failure {F : Type} [LinearOrderedField F] (tmin : F) (A : Matrix F) :
    (Decompose (Scalar.ordered tmin) A = .error .divisionByZero ↔
        A.rows = A.columns ∧ ∃ c d, c + 1 < A.rows ∧
          afterColumns (Scalar.ordered tmin) A c = .ok d ∧ |d.U.get c c| < tmin) ∧
      (Decompose (Scalar.ordered tmin) A = .error .notSquare ↔ A.rows ≠ A.columns) ∧
      ((∃ d, Decompose (Scalar.ordered tmin) A = .ok d) ↔
        A.rows = A.columns ∧ ¬ ∃ c d, c + 1 < A.rows ∧
          afterColumns (Scalar.ordered tmin) A c = .ok d ∧ |d.U.get c c| < tmin) ∧
      (∀ c d, afterColumns (Scalar.ordered tmin) A c = .ok d → |d.U.get c c| = tmin →
        ∃ d', afterColumns (Scalar.ordered tmin) A (c + 1) = .ok d') := by
  refine ⟨?_, Decompose_notSquare_iff _ A, ?_, ?_⟩
  · have := Decompose_divisionByZero_iff (Scalar.ordered tmin) A
    simp only [ordered_negligible_iff] at this
    exact this
  · have := Decompose_ok_iff (Scalar.ordered tmin) A
    simp only [ordered_negligible_iff] at this
    exact this
  · intro c d hrun heq
    rw [afterColumns_succ, hrun]
    refine columnBody_ok _ _ _ c d ?_
    rw [ordered_negligible_iff, heq]
    exact lt_irrefl tmin

set_option maxRecDepth 100000 in
theorem doubleScalar_negligible_zero : doubleScalar.negligible 0 = true := by
  decide!

/-- C9, as the code has it. In the run of `Decompose` that records the divisor of every
division it carries out, the outcome is that of `Decompose`, and every recorded divisor
is one that the test `fabs(p) < min` has accepted. Over an ordered field with a positive
threshold its magnitude is then at least the threshold, so it is not zero; in `double`
it is not negligible and not zero. -/
theorem Decompose_division_safe {F : Type} [LinearOrderedField F] (tmin : F)
    (htmin : 0 < tmin) (A : Matrix F) :
    (forget (DecomposeLog (Scalar.ordered tmin) A) = Decompose (Scalar.ordered tmin) A ∧
        ∀ p ∈ divisors (DecomposeLog (Scalar.ordered tmin) A), tmin ≤ |p| ∧ p ≠ 0) ∧
      ∀ B : Matrix Double,
        forget (DecomposeLog doubleScalar B) = Decompose doubleScalar B ∧
          ∀ p ∈ divisors (DecomposeLog doubleScalar B),
            doubleScalar.negligible p = false ∧ p ≠ 0 := by
  refine ⟨⟨DecomposeLog_forget _ A, fun p hp => ?_⟩, fun B => ⟨DecomposeLog_forget _ B, ?_⟩⟩
  · have h := DecomposeLog_divisors (Scalar.ordered tmin) A p hp
    rw [ordered_negligible_iff, not_lt] at h
    refine ⟨h, fun h0 => ?_⟩
    rw [h0, abs_zero] at h
    exact absurd htmin (not_lt.mpr h)
  · intro p hp
    have h := DecomposeLog_divisors doubleScalar B p hp
    refine ⟨by simpa using h, fun h0 => h ?_⟩
    rw [h0]
    exact doubleScalar_negligible_zero

/-- C9 as the code has it, at the matrix of the first test, with the threshold of
`double`: the three divisions have the divisors `1`, `1` and `-1`. -/
theorem Decompose_division_safe_witness :
    0 < doubleMin ∧
      divisors (DecomposeLog (Scalar.ordered doubleMin) testMatrix1) = [1, 1, -1] ∧
      forget (DecomposeLog (Scalar.ordered doubleMin) testMatrix1) =
        Decompose (Scalar.ordered doubleMin) testMatrix1 ∧
      ∀ p ∈ divisors (DecomposeLog (Scalar.ordered doubleMin) testMatrix1),
        doubleMin ≤ |p| ∧ p ≠ 0 :=
  ⟨doubleMin_pos, testMatrix1_divisors,
    (Decompose_division_safe doubleMin doubleMin_pos testMatrix1).1⟩

/-- C10 (worked example, `U`). On the matrix of the worked example `Decompose`
returns, as soon as the threshold is at most `1`, the matrix
`U = [[1,2,3],[0,-1,-2],[0,0,-2]]`, and the product of the returned `L` and `U` is the
input. -/
theorem Decompose_example_U (tmin : ℚ) (h : tmin ≤ 1) :
    ∃ d, Decompose (Scalar.ordered tmin) testMatrix1 = .ok d ∧
      d.U.toLists = [[1, 2, 3], [0, -1, -2], [0, 0, -2]] ∧
      (d.L.mul d.U).Same testMatrix1 :=
  ⟨_, testMatrix1_ordered tmin h, testMatrix1_U,
    mul_same_of_inv testMatrix1 rfl _ testMatrix1_inv⟩

/-- C10 with the threshold of `double`. -/
theorem Decompose_example_U_witness :
    doubleMin ≤ 1 ∧ ∃ d, Decompose (Scalar.ordered doubleMin) testMatrix1 = .ok d ∧
      d.U.toLists = [[1, 2, 3], [0, -1, -2], [0, 0, -2]] ∧
      (d.L.mul d.U).Same testMatrix1 :=
  ⟨doubleMin_le_one, Decompose_example_U doubleMin doubleMin_le_one⟩

/-! The stages of a run that returns a value. -/

theorem afterColumns_of_ok (N : Scalar K) (A : Matrix K) (d : Decomposition K)
    (h : Decompose N A = .ok d) (c : Nat) :
    afterColumns N A c = .ok (elimUpTo A.rows c (start A)) ∧
      d = elimUpTo A.rows A.rows (start A) := by
  have hsq := Decompose_ok_square N A d h
  rw [Decompose_square N A hsq, forLoop_columnBody_eq] at h
  by_cases hex : ∃ c, c < A.rows ∧ c + 1 < A.rows ∧
      N.negligible ((elimUpTo A.rows c (start A)).U.get c c) = true
  · rw [if_pos hex] at h
    cases h
  · rw [if_neg hex] at h
    simp only [Except.ok.injEq] at h
    refine ⟨?_, h.symm⟩
    rw [afterColumns_square N A hsq, forLoop_columnBody_eq, if_neg]
    rintro ⟨k, hk, hkn, hneg⟩
    exact hex ⟨k, by omega, hkn, hneg⟩

theorem elimUpTo_U_row (n c : Nat) (d : Decomposition K) (c1 c2 : Nat) (h1 : c ≤ c1)
    (h12 : c1 ≤ c2) (j : Nat) :
    (elimUpTo n c2 d).U.data c j = (elimUpTo n c1 d).U.data c j := by
  induction c2, h12 using Nat.le_induction with
  | base => rfl
  | succ k hk ih =>
    show (elim n k (elimUpTo n k d)).U.data c j = _
    rw [elim_U, if_neg (by omega), ih]

theorem elimUpTo_L_column (n c : Nat) (d : Decomposition K) (c2 : Nat) (h : c + 1 ≤ c2)
    (r : Nat) :
    (elimUpTo n c2 d).L.data r c = (elimUpTo n (c + 1) d).L.data r c := by
  induction c2, h using Nat.le_induction with
  | base => rfl
  | succ k hk ih =>
    show (elim n k (elimUpTo n k d)).L.data r c = _
    rw [elim_L, if_neg (by omega), ih]

theorem elimUpTo_L_entry (n c : Nat) (d : Decomposition K) (c2 : Nat) (h : c + 1 ≤ c2)
    (r : Nat) (hcr : c < r) (hr : r < n) :
    (elimUpTo n c2 d).L.data r c =
      (elimUpTo n c d).U.data r c / (elimUpTo n c d).U.data c c := by
  rw [elimUpTo_L_column n c d c2 h r]
  show (elim n c (elimUpTo n c d)).L.data r c = _
  rw [elim_L, if_pos ⟨rfl, hcr, hr⟩]

/-- C11 (multipliers and final pivot rows). In a run of `Decompose` that returns
`(L, U)`: row `0` of `U` is row `0` of the input; `L(r,0) = A(r,0) / A(0,0)` for
`r ≥ 1`; for `r > c`, `L(r,c)` is the quotient of `U(r,c)` by the pivot `U(c,c)` in the
state reached just before pivot column `c`; and row `c` of `U` is in every later state,
and in the result, what it was just before pivot column `c`. -/
theorem Decompose_multipliers (N : Scalar K) (A : Matrix K) (d : Decomposition K)
    (h : Decompose N A = .ok d) :
    (∀ j, j < A.rows → d.U.get 0 j = A.get 0 j) ∧
      (∀ r, 1 ≤ r → r < A.rows → d.L.get r 0 = A.get r 0 / A.get 0 0) ∧
      (∀ c r, c < r → r < A.rows → ∃ dc, afterColumns N A c = .ok dc ∧
        d.L.get r c = dc.U.get r c / dc.U.get c c) ∧
      (∀ c c', c ≤ c' → c' ≤ A.rows → ∃ dc dc', afterColumns N A c = .ok dc ∧
        afterColumns N A c' = .ok dc' ∧
        (∀ j, dc'.U.get c j = dc.U.get c j) ∧ ∀ j, d.U.get c j = dc.U.get c j) := by
  have hd := (afterColumns_of_ok N A d h 0).2
  refine ⟨?_, ?_, ?_, ?_⟩
  · intro j _
    rw [hd]
    exact elimUpTo_U_row A.rows 0 (start A) 0 A.rows (le_refl _) (Nat.zero_le _) j
  · intro r hr hrn
    rw [hd]
    exact elimUpTo_L_entry A.rows 0 (start A) A.rows (by omega) r (by omega) hrn
  · intro c r hcr hrn
    refine ⟨_, (afterColumns_of_ok N A d h c).1, ?_⟩
    rw [hd]
    exact elimUpTo_L_entry A.rows c (start A) A.rows (by omega) r hcr hrn
  · intro c c' hcc hcn
    refine ⟨_, _, (afterColumns_of_ok N A d h c).1,
      (afterColumns_of_ok N A d h c').1, ?_, ?_⟩
    · intro j
      exact elimUpTo_U_row A.rows c (start A) c c' (le_refl _) hcc j
    · intro j
      rw [hd]
      exact elimUpTo_U_row A.rows c (start A) c A.rows (le_refl _) (by omega) j

/-- C11 at the matrix of the first test, with the threshold of `double`. -/
theorem Decompose_multipliers_witness :
    Decompose (Scalar.ordered doubleMin) testMatrix1 = .ok (elimUpTo 3 3 (start testMatrix1)) ∧
      (∀ j, j < 3 → (elimUpTo 3 3 (start testMatrix1)).U.get 0 j = testMatrix1.get 0 j) ∧
      (∀ r, 1 ≤ r → r < 3 →
        (elimUpTo 3 3 (start testMatrix1)).L.get r 0 =
          testMatrix1.get r 0 / testMatrix1.get 0 0) ∧
      (∀ c r, c < r → r < 3 → ∃ dc,
        afterColumns (Scalar.ordered doubleMin) testMatrix1 c = .ok dc ∧
        (elimUpTo 3 3 (start testMatrix1)).L.get r c = dc.U.get r c / dc.U.get c c) ∧
      (∀ c c', c ≤ c' → c' ≤ 3 → ∃ dc dc',
        afterColumns (Scalar.ordered doubleMin) testMatrix1 c = .ok dc ∧
        afterColumns (Scalar.ordered doubleMin) testMatrix1 c' = .ok dc' ∧
        (∀ j, dc'.U.get c j = dc.U.get c j) ∧
        ∀ j, (elimUpTo 3 3 (start testMatrix1)).U.get c j = dc.U.get c j) :=
  ⟨testMatrix1_double, Decompose_multipliers _ _ _ testMatrix1_double⟩

/-! The rows of one pivot column in another order. -/

theorem elimIn_nil (n c : Nat) (d : Decomposition K) : elimIn n c [] d = d := by
  cases d with
  | mk L U =>
    cases L with
    | mk r1 c1 f1 =>
      cases U with
      | mk r2 c2 f2 =>
        simp only [elimIn, Decomposition.mk.injEq, Matrix.mk.injEq, true_and]
        refine ⟨?_, ?_⟩ <;> funext i j <;> simp

theorem elimIn_cons (n c r : Nat) (rest : List Nat) (hrc : r ≠ c) (hr : r ∉ rest)
    (d : Decomposition K) :
    elimIn n c rest (rowStep n c r d) = elimIn n c (r :: rest) d := by
  have hcr : c ≠ r := fun h => hrc h.symm
  cases d with
  | mk L U =>
    cases L with
    | mk r1 c1 f1 =>
      cases U with
      | mk r2 c2 f2 =>
        simp only [elimIn, rowStep, rowElim, Matrix.set, Matrix.get, Decomposition.mk.injEq,
          Matrix.mk.injEq, true_and]
        refine ⟨?_, ?_⟩
        · funext i j
          by_cases h1 : j = c ∧ i ∈ rest
          · have h3 : i ≠ r := fun h => hr (h ▸ h1.2)
            simp [h1, h3, hrc, hcr]
          · by_cases h4 : i = r ∧ j = c
            · obtain ⟨rfl, rfl⟩ := h4
              simp [hr, hrc, hcr]
            · have h2 : ¬ (j = c ∧ i ∈ r :: rest) := by
                rintro ⟨h5, h6⟩
                rcases List.mem_cons.mp h6 with h7 | h7
                · exact h4 ⟨h7, h5⟩
                · exact h1 ⟨h5, h7⟩
              rw [if_neg h1, if_neg h4, if_neg h2]
        · funext i j
          by_cases h1 : i ∈ rest ∧ c ≤ j ∧ j < n
          · have h3 : i ≠ r := fun h => hr (h ▸ h1.1)
            simp [h1, h3, hrc, hcr]
          · by_cases h4 : i = r ∧ c ≤ j ∧ j < n
            · have h5 : i = r ∧ c ≤ j ∧ j < c + (n - c) := by omega
              obtain ⟨rfl, h41, h42⟩ := h4
              simp [hr, h41, h42, h5.2, hrc, hcr]
            · have h2 : ¬ (i ∈ r :: rest ∧ c ≤ j ∧ j < n) := by
                rintro ⟨h6, h7⟩
                rcases List.mem_cons.mp h6 with h8 | h8
                · exact h4 ⟨h8, h7⟩
                · exact h1 ⟨h8, h7⟩
              have h5 : ¬ (i = r ∧ c ≤ j ∧ j < c + (n - c)) := by omega
              rw [if_neg h1, if_neg h5, if_neg h2]

theorem columnBodyIn_eq (N : Scalar K) (n c : Nat) (order : List Nat)
    (hne : ∀ r ∈ order, r ≠ c) (hnd : order.Nodup) (d : Decomposition K) :
    columnBodyIn N n c order d =
      if order ≠ [] ∧ N.negligible (d.U.get c c) = true then .error .divisionByZero
      else .ok (elimIn n c order d) := by
  induction order generalizing d with
  | nil => simp [columnBodyIn, elimIn_nil]
  | cons r rest ih =>
    have hrc : r ≠ c := hne r (List.mem_cons_self r rest)
    have hr : r ∉ rest := (List.nodup_cons.mp hnd).1
    simp only [columnBodyIn, rowBody_eq N n c r hrc]
    by_cases hp : N.negligible (d.U.get c c) = true
    · simp [hp]
    · rw [if_neg hp, if_neg (fun hc => hp hc.2)]
      show columnBodyIn N n c rest (rowStep n c r d) = _
      rw [ih (fun x hx => hne x (List.mem_cons_of_mem r hx)) (List.nodup_cons.mp hnd).2,
        rowStep_pivot n c r hrc, elimIn_cons n c r rest hrc hr, if_neg (fun hc => hp hc.2)]

theorem elimIn_of_mem (n c : Nat) (order : List Nat)
    (hmem : ∀ i, i ∈ order ↔ c + 1 ≤ i ∧ i < n) (d : Decomposition K) :
    elimIn n c order d = elim n c d := by
  cases d with
  | mk L U =>
    cases L with
    | mk r1 c1 f1 =>
      cases U with
      | mk r2 c2 f2 =>
        simp only [elimIn, elim, elimRows, Decomposition.mk.injEq, Matrix.mk.injEq, true_and]
        refine ⟨?_, ?_⟩
        · funext i j
          by_cases h1 : j = c ∧ i ∈ order
          · have h2 : j = c ∧ c + 1 ≤ i ∧ i < c + 1 + (n - (c + 1)) := by
              have := (hmem i).mp h1.2
              omega
            rw [if_pos h1, if_pos h2]
          · have h2 : ¬ (j = c ∧ c + 1 ≤ i ∧ i < c + 1 + (n - (c + 1))) := by
              rintro ⟨h3, h4, h5⟩
              exact h1 ⟨h3, (hmem i).mpr ⟨h4, by omega⟩⟩
            rw [if_neg h1, if_neg h2]
        · funext i j
          by_cases h1 : i ∈ order ∧ c ≤ j ∧ j < n
          · have h2 : (c + 1 ≤ i ∧ i < c + 1 + (n - (c + 1))) ∧ c ≤ j ∧ j < n := by
              have := (hmem i).mp h1.1
              omega
            rw [if_pos h1, if_pos h2]
          · have h2 : ¬ ((c + 1 ≤ i ∧ i < c + 1 + (n - (c + 1))) ∧ c ≤ j ∧ j < n) := by
              rintro ⟨⟨h3, h4⟩, h5⟩
              exact h1 ⟨(hmem i).mpr ⟨h3, by omega⟩, h5⟩
            rw [if_neg h1, if_neg h2]

theorem columnBodyIn_perm (N : Scalar K) (n c : Nat) (order : List Nat)
    (hperm : order.Perm (List.range' (c + 1) (n - (c + 1)))) (d : Decomposition K) :
    columnBodyIn N n c order d = columnBody N n n c d := by
  have hmem : ∀ i, i ∈ order ↔ c + 1 ≤ i ∧ i < n := by
    intro i
    rw [hperm.mem_iff, List.mem_range'_1]
    omega
  have hnd : order.Nodup := hperm.nodup_iff.mpr (List.nodup_range' _ _)
  have hne : ∀ r ∈ order, r ≠ c := by
    intro r hr
    have := (hmem r).mp hr
    omega
  have hnil : order ≠ [] ↔ c + 1 < n := by
    constructor
    · intro h
      obtain ⟨x, hx⟩ := List.exists_mem_of_ne_nil order h
      have := (hmem x).mp hx
      omega
    · intro h hnil
      have := (hmem (c + 1)).mpr ⟨le_refl _, h⟩
      rw [hnil] at this
      cases this
  rw [columnBodyIn_eq N n c order hne hnd, columnBody_eq, elimIn_of_mem n c order hmem]
  simp only [hnil]

theorem rowBody_pivot_row (N : Scalar K) (n c r : Nat) (hrc : r ≠ c) (d d' : Decomposition K)
    (h : rowBody N n c r d = .ok d') (j : Nat) : d'.U.get c j = d.U.get c j := by
  rw [rowBody_eq N n c r hrc] at h
  by_cases hp : N.negligible (d.U.get c c) = true
  · rw [if_pos hp] at h
    cases h
  · rw [if_neg hp] at h
    simp only [Except.ok.injEq] at h
    subst h
    have h2 : ¬ (c = r ∧ c ≤ j ∧ j < c + (n - c)) := fun h3 => hrc h3.1.symm
    simp only [rowStep, rowElim, Matrix.get, if_neg h2]

/-- C12 (row order inside a pivot column). For a pivot column `c` of an `n × n` state,
running the row body over the rows `c+1 .. n-1` in any order, for instance in reverse,
gives the outcome of the ascending loop of the code: the same exception or the same
`L` and `U`. The pivot row is what every pass of the row body leaves unchanged. -/
theorem columnBody_any_order (N : Scalar K) (n c : Nat) (order : List Nat)
    (hperm : order.Perm (List.range' (c + 1) (n - (c + 1)))) (d : Decomposition K) :
    columnBodyIn N n c order d = columnBody N n n c d ∧
      columnBodyIn N n c (List.range' (c + 1) (n - (c + 1))).reverse d =
        columnBody N n n c d ∧
      ∀ r d', r ≠ c → rowBody N n c r d = .ok d' → ∀ j, d'.U.get c j = d.U.get c j :=
  ⟨columnBodyIn_perm N n c order hperm d,
    columnBodyIn_perm N n c _ (List.reverse_perm _) d,
    fun r d' hrc h j => rowBody_pivot_row N n c r hrc d d' h j⟩

/-- C12 at the first pivot column of the matrix of the first test, with the rows in
the order `2, 1` and the threshold of `double`. -/
theorem columnBody_any_order_witness :
    [2, 1].Perm (List.range' (0 + 1) (3 - (0 + 1))) ∧
      columnBodyIn (Scalar.ordered doubleMin) 3 0 [2, 1] (start testMatrix1) =
        columnBody (Scalar.ordered doubleMin) 3 3 0 (start testMatrix1) ∧
      columnBodyIn (Scalar.ordered doubleMin) 3 0 (List.range' (0 + 1) (3 - (0 + 1))).reverse
          (start testMatrix1) =
        columnBody (Scalar.ordered doubleMin) 3 3 0 (start testMatrix1) ∧
      ∀ r d', r ≠ 0 →
        rowBody (Scalar.ordered doubleMin) 3 0 r (start testMatrix1) = .ok d' →
        ∀ j, d'.U.get 0 j = (start testMatrix1).U.get 0 j :=
  ⟨by decide, columnBody_any_order (Scalar.ordered doubleMin) 3 0 [2, 1] (by decide)
    (start testMatrix1)⟩

theorem elim_last (n c : Nat) (h : n ≤ c + 1) (d : Decomposition K) : elim n c d = d := by
  rw [elim, show n - (c + 1) = 0 by omega, elimRows_zero]

theorem Decompose_one (N : Scalar K) (A : Matrix K) (hr : A.rows = 1) (hc : A.columns = 1) :
    Decompose N A = .ok (start A) := by
  rw [Decompose_ok_of_pivots N A (by omega) (fun c hc1 => by omega), hr]
  show Except.ok (elim 1 0 (start A)) = _
  rw [elim_last 1 0 (le_refl _)]

theorem ones_ok (N : Scalar K) (h1 : ¬ N.negligible 1 = true) :
    Decompose N onesMatrix = .ok (elimUpTo 2 2 (start onesMatrix)) := by
  refine Decompose_ok_of_pivots N _ rfl (fun c hc => ?_)
  change c + 1 < 2 at hc
  have h0 : c = 0 := by omega
  subst h0
  have hp : (elimUpTo (onesMatrix : Matrix K).rows 0 (start (onesMatrix : Matrix K))).U.get 0 0 =
      1 := by
    simp [elimUpTo, start, onesMatrix, Matrix.ofList, Matrix.get]
  rw [hp]
  exact h1

theorem ones_LU :
    (elimUpTo 2 2 (start (onesMatrix : Matrix K))).L.toLists = [[1, 0], [1, 1]] ∧
      (elimUpTo 2 2 (start (onesMatrix : Matrix K))).U.toLists = [[1, 1], [0, 0]] := by
  have hs := elimUpTo_rows 2 2 (start (onesMatrix : Matrix K))
  simp only [Matrix.toLists, hs.1, hs.2.1, hs.2.2.1, hs.2.2.2]
  simp [start, MatrixFactory.IdentityMatrix, List.range_succ, Matrix.get, elimUpTo, elim_L,
    elim_U, onesMatrix, Matrix.ofList]

/-- C15 (the last pivot is never checked). Every `1 × 1` matrix is decomposed, whatever
its element and whatever the pivot test, into `L = [1]` and `U = A`; and on the
singular matrix `[[1,1],[1,1]]`, as soon as the pivot `1` is accepted, `Decompose`
returns `L = [[1,0],[1,1]]` and `U = [[1,1],[0,0]]`, whose last pivot is zero. -/
theorem Decompose_last_pivot (N : Scalar K) (A : Matrix K) (hr : A.rows = 1)
    (hc : A.columns = 1) :
    (∃ d, Decompose N A = .ok d ∧ d.L = MatrixFactory.IdentityMatrix 1 ∧ d.U = A ∧
        d.L.toLists = [[1]]) ∧
      (¬ N.negligible 1 = true →
        ∃ d, Decompose N onesMatrix = .ok d ∧
          d.L.toLists = [[1, 0], [1, 1]] ∧ d.U.toLists = [[1, 1], [0, 0]] ∧
          d.U.get 1 1 = 0 ∧ leadingMinor ((onesMatrix : Matrix K)) 2 = 0) := by
  refine ⟨⟨start A, Decompose_one N A hr hc, ?_, rfl, ?_⟩, fun h1 => ?_⟩
  · rw [start, hr]
  · simp [start, hr, Matrix.toLists, MatrixFactory.IdentityMatrix, Matrix.get, List.range_succ]
  · refine ⟨_, ones_ok N h1, ones_LU.1, ones_LU.2, ?_, ?_⟩
    · simp [start, Matrix.get, elimUpTo, elim_U, onesMatrix, Matrix.ofList]
    · simp [leadingMinor, Matrix.det_fin_two, onesMatrix, Matrix.ofList, Matrix.get]

/-- C15 at the matrix `[0]`, with the threshold of `double`. -/
theorem Decompose_last_pivot_witness :
    (∃ d, Decompose (Scalar.ordered doubleMin) (Matrix.ofList 1 1 [0]) = .ok d ∧
        d.L = MatrixFactory.IdentityMatrix 1 ∧ d.U = Matrix.ofList 1 1 [0] ∧
        d.L.toLists = [[1]]) ∧
      ∃ d, Decompose (Scalar.ordered doubleMin) onesMatrix = .ok d ∧
        d.L.toLists = [[1, 0], [1, 1]] ∧ d.U.toLists = [[1, 1], [0, 0]] ∧
        d.U.get 1 1 = 0 ∧ leadingMinor ((onesMatrix : Matrix ℚ)) 2 = 0 :=
  ⟨(Decompose_last_pivot (Scalar.ordered doubleMin) (Matrix.ofList 1 1 [0]) rfl rfl).1,
    (Decompose_last_pivot (Scalar.ordered doubleMin) (Matrix.ofList 1 1 [0]) rfl rfl).2
      (ordered_not_negligible _ _ (by rw [abs_one]; exact doubleMin_le_one))⟩

/-- In a semiring the product accumulated by a loop is the product `Matrix.mul`. -/
theorem mulLoop_eq_mul {R : Type} [Semiring R] (A B : Matrix R) : A.mulLoop B = A.mul B := by
  have hfold : ∀ (f : Nat → R) (n : Nat),
      (List.range n).foldl (fun sum k => sum + f k) 0 = ∑ k ∈ Finset.range n, f k := by
    intro f n
    induction n with
    | zero => simp
    | succ m ih => rw [List.range_succ, List.foldl_append, ih, Finset.sum_range_succ]; rfl
  simp only [Matrix.mulLoop, Matrix.mul, Matrix.mk.injEq, true_and]
  funext i j
  exact hfold (fun k => A.data i k * B.data k j) A.columns

set_option maxRecDepth 100000 in
/-- The quotient `1 / 3` in `double` is `6004799503160661 * 2^-54`. -/
theorem double_one_third : (1 : Double) / 3 = Double.dyadic 6004799503160661 (-54) := by
  decide!

set_option maxRecDepth 100000 in
/-- The literals `0`, `1` and `2` of `double`, in quanta of `2^-1074`. -/
theorem double_literals :
    (0 : Double) = Double.finite 0 ∧ (1 : Double) = Double.finite (1 <<< 1074) ∧
      (2 : Double) = Double.finite (1 <<< 1075) := by
  decide!

set_option maxRecDepth 100000 in
/-- The sum `0.1 + 0.2` in `double` is `0.30000000000000004`, the double above
`0.3`. -/
theorem double_tenths :
    Double.dyadic 3602879701896397 (-55) + Double.dyadic 3602879701896397 (-54) =
      Double.dyadic 1351079888211149 (-52) ∧
    (3 : Double) / 10 = Double.dyadic 5404319552844595 (-54) := by
  decide!

set_option maxRecDepth 100000 in
/-- Overflow, and the NaN of `inf * 0`. -/
theorem double_overflow :
    Double.dyadic 1 1000 / Double.dyadic 1 (-1022) = Double.infinite false ∧
      Double.infinite false * (0 : Double) = Double.nan ∧
      (1 : Double) - Double.nan = Double.nan := by
  decide!

set_option maxRecDepth 100000 in
/-- Zero is a negligible pivot in `double`, and `2^-1022` is not. -/
theorem doubleScalar_zero :
    doubleScalar.negligible 0 = true ∧
      doubleScalar.negligible (Double.dyadic 1 (-1022)) = false := by
  decide!

set_option maxRecDepth 100000 in
theorem nanMatrix_divisors :
    divisors (DecomposeLog doubleScalar nanMatrix) =
        [Double.dyadic 1 (-1022), Double.dyadic 1 (-1022), Double.nan] ∧
      Double.le doubleScalar.min (Double.fabs Double.nan) = false ∧
      doubleScalar.negligible Double.nan = false := by
  decide!

/-- C9 as the spec has it fails in `double`: on the finite input
`[[2^-1022, 0, 0], [2^1000, 1, 0], [0, 1, 1]]` the divisors are `2^-1022`, `2^-1022` and a
NaN, which the test `fabs(p) < min` accepts and whose magnitude is not at least the
threshold. -/
theorem Decompose_division_double_fails :
    divisors (DecomposeLog doubleScalar nanMatrix) =
        [Double.dyadic 1 (-1022), Double.dyadic 1 (-1022), Double.nan] ∧
      Double.le doubleScalar.min (Double.fabs Double.nan) = false ∧
      doubleScalar.negligible Double.nan = false :=
  nanMatrix_divisors

end LUDecomposition

end LinAlg
